import Mathlib

/-!
Verification development for `czsc/traders/rwc.py` (`RedisWeightsClient`).

The Redis backing store is modelled as explicit association lists, one per
kind of key the client creates:

* `recs`  : individual WeightEvent hash records, key `prefix:strategy:symbol:YYYYMMDDHHMMSS`
* `lasts` : LastPointer hash records, key `prefix:strategy:symbol:LAST`
* `zidx`  : per-(prefix,strategy,symbol) sorted-set index, key `prefix:strategy:symbol`
* `metas` : strategy metadata hashes, key `prefix:META:strategy`
* `lastMarkers` : strategy-wide last-update hashes, key `prefix:LAST:strategy`
* `heartbeats`  : liveness scalar, key `prefix:heartbeat_prefix:strategy`
* `names` : the `prefix:StrategyNames` set
* `pubs`  : the log of PUBLISH broadcasts

Numeric weights and prices are modelled as exact rationals (the Python/Lua
code handles them as floats; the 1e-5 dedup tolerance is the literal rational
1/100000).  Timestamps are modelled as the 14-digit `YYYYMMDDHHMMSS` integer
the code embeds in keys and uses as the sorted-set score; the human-readable
`dt` field stored in records is kept alongside as the string the Lua script
builds from that integer (formatting and parsing of the instant are inverse,
order-preserving operations).
-/

namespace RWC

/-- Key of a LastPointer / sorted-set index: `(key_prefix, strategy, symbol)`. -/
structure SKey where
  kpre : String
  strat : String
  sym : String
deriving DecidableEq

/-- Key of an individual weight-event record:
`(key_prefix, strategy, symbol, YYYYMMDDHHMMSS)`. -/
structure EvKey where
  kpre : String
  strat : String
  sym : String
  t : Nat
deriving DecidableEq

/-- Hash record written for an event and for the LastPointer:
`{symbol, weight, dt, update_time, price, ref}`.  `dt` is the instant as the
14-digit integer; `dtStr` is the formatted rendering (`YYYY-MM-DD HH:MM:SS`)
the Lua script stores in the `dt` field. -/
structure WeightRec where
  symbol : String
  weight : Rat
  dt : Nat
  dtStr : String
  update_time : String
  price : Rat
  ref : String
deriving DecidableEq

/-- The per-key `ARGV` triple of the publish script: signal weight, price,
reference string. -/
structure PubArgs where
  sig : Rat
  price : Rat
  ref : String
deriving DecidableEq

/-- One PUBSUB broadcast.  The Lua script publishes the colon-joined payload
`key .. ':' .. sig .. ':' .. price .. ':' .. ref_str` on channel
`PUBSUB:prefix:strategy:symbol`; the payload's four components are kept
structurally here. -/
structure PubMsg where
  channel : String
  key : EvKey
  weight : Rat
  price : Rat
  ref : String
deriving DecidableEq

/-- Strategy metadata record (`set_metadata`); `keyPre` is the `key_prefix`
field. -/
structure MetaRec where
  name : String
  base_freq : String
  keyPre : String
  description : String
  author : String
  outsample_sdt : String
  update_time : String
  kwargs : String
deriving DecidableEq

/-- The modelled Redis keyspace. -/
structure Store where
  recs : List (EvKey × WeightRec)
  lasts : List (SKey × WeightRec)
  zidx : List (SKey × List (Nat × EvKey))
  metas : List ((String × String) × MetaRec)
  lastMarkers : List ((String × String) × String)
  heartbeats : List ((String × String) × String)
  names : List (String × List String)
  pubs : List PubMsg
deriving DecidableEq

/-- The empty keyspace. -/
def Store.empty : Store := ⟨[], [], [], [], [], [], [], []⟩

/-- Association-list lookup (Redis `HGETALL`/`HGET` on one of our tables). -/
def alookup {κ β : Type} [DecidableEq κ] : List (κ × β) → κ → Option β
  | [], _ => none
  | (k', v) :: rest, k => if k' = k then some v else alookup rest k

/-- Association-list update-or-append (Redis `HMSET` writing every field,
hence a whole-record overwrite). -/
def aset {κ β : Type} [DecidableEq κ] : List (κ × β) → κ → β → List (κ × β)
  | [], k, v => [(k, v)]
  | (k', v') :: rest, k, v => if k' = k then (k, v) :: rest else (k', v') :: aset rest k v

/-- Association-list delete (Redis `DEL`). -/
def aerase {κ β : Type} [DecidableEq κ] : List (κ × β) → κ → List (κ × β)
  | [], _ => []
  | (k', v) :: rest, k => if k' = k then aerase rest k else (k', v) :: aerase rest k

/-- Character for the decimal digit `n` (`n < 10`). -/
def digitChar (n : Nat) : Char := Char.ofNat (48 + n)

/-- Decimal digits of `n`, most significant first; `fu` is structural fuel
(any `fu > n` is enough). -/
def natDigsF : Nat → Nat → List Char
  | 0, _ => []
  | fu + 1, n => if n < 10 then [digitChar n] else natDigsF fu (n / 10) ++ [digitChar (n % 10)]

/-- Decimal digits of `n`, most significant first. -/
def natDigs (n : Nat) : List Char := natDigsF (n + 1) n

/-- The 14-character zero-padded decimal rendering of a timestamp, i.e. the
`strftime("%Y%m%d%H%M%S")` suffix the client puts in event keys. -/
def pad14 (t : Nat) : List Char :=
  List.replicate (14 - (natDigs t).length) '0' ++ natDigs t

/-- The `at_str` the Lua script builds from the key's 14-character
`action_time` by `string.sub` slicing: `YYYY-MM-DD HH:MM:SS`. -/
def luaAtStr (t : Nat) : String :=
  let s := pad14 t
  String.mk (s.take 4 ++ '-' :: (s.drop 4).take 2 ++ '-' :: (s.drop 6).take 2 ++
    ' ' :: (s.drop 8).take 2 ++ ':' :: (s.drop 10).take 2 ++ ':' :: (s.drop 12).take 2)

/-- The `model_key` the Lua script derives: the first three segments of an
event key. -/
def modelKey (k : EvKey) : SKey := ⟨k.kpre, k.strat, k.sym⟩

/-- Redis `ZADD`: insert `(score, member)`, replacing the member's previous
entry if present. -/
def zadd (l : List (Nat × EvKey)) (score : Nat) (m : EvKey) : List (Nat × EvKey) :=
  l.filter (fun p => decide (p.2 ≠ m)) ++ [(score, m)]

/-- The record the Lua script writes (both as the event record and as the
LastPointer) for key `k`, argument triple `a` and transaction `update_time`. -/
def mkRec (k : EvKey) (a : PubArgs) (udt : String) : WeightRec :=
  { symbol := k.sym, weight := a.sig, dt := k.t, dtStr := luaAtStr k.t,
    update_time := udt, price := a.price, ref := a.ref }

/-- The broadcast the Lua script performs for an accepted key. -/
def mkMsg (k : EvKey) (a : PubArgs) : PubMsg :=
  { channel := "PUBSUB:" ++ k.kpre ++ ":" ++ k.strat ++ ":" ++ k.sym,
    key := k, weight := a.sig, price := a.price, ref := a.ref }

/-- The `if_pass` flag the Lua script computes for one key (`true` means
the key is skipped): with `overwrite ~= '0'` it is `false`; otherwise it is
`false` when no LastPointer exists or the new weight is more than 1e-5 away
from the LastPointer weight, else `true`. -/
def luaIfPass (ow : Bool) (st : Store) (k : EvKey) (a : PubArgs) : Bool :=
  if ow then false
  else
    match alookup st.lasts (modelKey k) with
    | none => false
    | some pos => if |a.sig - pos.weight| > 1 / 100000 then false else true

/-- One iteration of the Lua publish script's loop for key `k` with
argument triple `a`: the dedup check against the LastPointer, then (on
acceptance) `ZADD` into the index, `HMSET` of the event record, `HMSET` of
the LastPointer, and the `PUBLISH` broadcast.  Returns the new store and
whether the key was accepted (the script's `cnt` is incremented exactly on
acceptance, since `HMSET` always replies OK). -/
def luaStep (ow : Bool) (udt : String) (st : Store) (k : EvKey) (a : PubArgs) : Store × Bool :=
  let mk := modelKey k
  if luaIfPass ow st k a then (st, false)
  else
    let r := mkRec k a udt
    ({ st with
        zidx := aset st.zidx mk (zadd ((alookup st.zidx mk).getD []) k.t k)
        recs := aset st.recs k r
        lasts := aset st.lasts mk r
        pubs := st.pubs ++ [mkMsg k a] }, true)

/-- The whole Lua publish transaction: process the batch in submission
order, threading the store, and return the accepted count. -/
def luaPublish (ow : Bool) (udt : String) : Store → List (EvKey × PubArgs) → Store × Nat
  | st, [] => (st, 0)
  | st, (k, a) :: rest =>
    let p := luaStep ow udt st k a
    let q := luaPublish ow udt p.1 rest
    (q.1, (if p.2 then 1 else 0) + q.2)

/-- The per-key acceptance flags of a batch, in processing order (each flag
is evaluated against the store state reached after the earlier keys). -/
def acceptFlags (ow : Bool) (udt : String) : Store → List (EvKey × PubArgs) → List Bool
  | _, [] => []
  | st, (k, a) :: rest =>
    let p := luaStep ow udt st k a
    p.2 :: acceptFlags ow udt p.1 rest

theorem alookup_aset {κ β : Type} [DecidableEq κ] (l : List (κ × β)) (k : κ) (v : β) :
    alookup (aset l k v) k = some v := by
  induction l with
  | nil => simp [aset, alookup]
  | cons hd tl ih =>
    obtain ⟨k', v'⟩ := hd
    by_cases h : k' = k
    · simp [aset, h, alookup]
    · simp [aset, h, alookup, ih]

/-- C1: in the Atomic Publish Transaction, a key processed with
`overwrite = false` is accepted iff no LastPointer exists for its
(strategy, symbol) or the new weight differs from the LastPointer weight by
more than 1e-5; with `overwrite = true` every key is accepted.  The third
conjunct records that a batch is processed key by key through exactly this
step, so the statement covers every key of a batch (each judged against the
store state current when its turn comes). -/
theorem C1_dedup_accept (udt : String) (st : Store) (k : EvKey) (a : PubArgs) :
    (luaStep true udt st k a).2 = true ∧
    ((luaStep false udt st k a).2 = true ↔
      (match alookup st.lasts (modelKey k) with
       | none => True
       | some pos => |a.sig - pos.weight| > 1 / 100000)) ∧
    (∀ (ow : Bool) (rest : List (EvKey × PubArgs)),
      luaPublish ow udt st ((k, a) :: rest) =
        ((luaPublish ow udt (luaStep ow udt st k a).1 rest).1,
         (if (luaStep ow udt st k a).2 then 1 else 0) +
           (luaPublish ow udt (luaStep ow udt st k a).1 rest).2)) := by
  refine ⟨?_, ?_, ?_⟩
  · simp [luaStep, luaIfPass]
  · cases h : alookup st.lasts (modelKey k) with
    | none => simp [luaStep, luaIfPass, h]
    | some pos =>
      by_cases htol : |a.sig - pos.weight| > 1 / 100000
      · have h1 : ¬ |a.sig - pos.weight| ≤ (100000 : ℚ)⁻¹ := by
          rw [← one_div]; exact not_le.mpr htol
        have h2 : (100000 : ℚ)⁻¹ < |a.sig - pos.weight| := by
          rw [← one_div]; exact htol
        simp [luaStep, luaIfPass, h, h1, h2]
      · have h1 : |a.sig - pos.weight| ≤ (100000 : ℚ)⁻¹ := by
          rw [← one_div]; exact not_lt.mp htol
        have h2 : ¬ (100000 : ℚ)⁻¹ < |a.sig - pos.weight| := by
          rw [← one_div]; exact htol
        simp [luaStep, luaIfPass, h, h1, h2]
  · intro ow rest
    rfl

theorem luaStep_cases (ow : Bool) (udt : String) (st : Store) (k : EvKey) (a : PubArgs) :
    luaStep ow udt st k a = (st, false) ∨
    luaStep ow udt st k a =
      ({ st with
          zidx := aset st.zidx (modelKey k)
            (zadd ((alookup st.zidx (modelKey k)).getD []) k.t k)
          recs := aset st.recs k (mkRec k a udt)
          lasts := aset st.lasts (modelKey k) (mkRec k a udt)
          pubs := st.pubs ++ [mkMsg k a] }, true) := by
  unfold luaStep
  cases h : luaIfPass ow st k a <;> simp [h]

theorem luaPublish_count (ow : Bool) (udt : String) :
    ∀ (batch : List (EvKey × PubArgs)) (st : Store),
      (luaPublish ow udt st batch).2 = (acceptFlags ow udt st batch).count true := by
  intro batch
  induction batch with
  | nil => intro st; rfl
  | cons hd tl ih =>
    intro st
    obtain ⟨k, a⟩ := hd
    simp only [luaPublish, acceptFlags, List.count_cons, ih]
    cases (luaStep ow udt st k a).2 <;> simp [Nat.add_comm]

/-- C5: for every key of a batch processed by the publish transaction — an
accepted key appends `(event_time, key)` to its SymbolIndex, writes the
event record `mkRec` (fields `{symbol, weight, formatted event_time,
update_time, price, reference}`), overwrites the LastPointer with the same
record, and emits exactly one broadcast on the per-(strategy,symbol)
channel; a rejected key changes nothing; the transaction's return value is
the number of accepted keys. -/
theorem C5_txn_effects (ow : Bool) (udt : String) (st : Store) (k : EvKey) (a : PubArgs) :
    ((luaStep ow udt st k a).2 = true →
      alookup (luaStep ow udt st k a).1.recs k = some (mkRec k a udt) ∧
      alookup (luaStep ow udt st k a).1.lasts (modelKey k) = some (mkRec k a udt) ∧
      (k.t, k) ∈ (alookup (luaStep ow udt st k a).1.zidx (modelKey k)).getD [] ∧
      (luaStep ow udt st k a).1.pubs = st.pubs ++ [mkMsg k a] ∧
      (luaStep ow udt st k a).1.metas = st.metas) ∧
    ((luaStep ow udt st k a).2 = false → (luaStep ow udt st k a).1 = st) ∧
    (∀ batch : List (EvKey × PubArgs),
      (luaPublish ow udt st batch).2 = (acceptFlags ow udt st batch).count true) := by
  refine ⟨?_, ?_, fun batch => luaPublish_count ow udt batch st⟩
  · intro hacc
    rcases luaStep_cases ow udt st k a with h | h
    · rw [h] at hacc; simp at hacc
    · rw [h]
      refine ⟨alookup_aset _ _ _, alookup_aset _ _ _, ?_, rfl, rfl⟩
      simp only [alookup_aset, Option.getD_some, zadd]
      exact List.mem_append_right _ (List.mem_singleton.mpr rfl)
  · intro hrej
    rcases luaStep_cases ow udt st k a with h | h
    · rw [h]
    · rw [h] at hrej; simp at hrej

/-- Witness for C5 at a concrete accepted key (overwrite mode, empty store). -/
theorem C5_txn_effects_witness :
    alookup (luaStep true "u" Store.empty ⟨"W", "S", "A", 20240101010101⟩
        ⟨1, 2, "r"⟩).1.recs ⟨"W", "S", "A", 20240101010101⟩ =
      some (mkRec ⟨"W", "S", "A", 20240101010101⟩ ⟨1, 2, "r"⟩ "u") ∧
    (luaStep true "u" Store.empty ⟨"W", "S", "A", 20240101010101⟩ ⟨1, 2, "r"⟩).1.pubs =
      [mkMsg ⟨"W", "S", "A", 20240101010101⟩ ⟨1, 2, "r"⟩] := by
  have h := C5_txn_effects true "u" Store.empty ⟨"W", "S", "A", 20240101010101⟩ ⟨1, 2, "r"⟩
  have hacc : (luaStep true "u" Store.empty ⟨"W", "S", "A", 20240101010101⟩ ⟨1, 2, "r"⟩).2
      = true := rfl
  exact ⟨(h.1 hacc).1, by rw [(h.1 hacc).2.2.2.1]; rfl⟩

/-! ### JSON model

`publish` serializes `dict` reference payloads with `json.dumps`, and
`get_hist_weights` decodes stored reference strings with `json.loads`
(falling back to the raw string when decoding fails).  The library pair is
modelled here by an executable printer and parser over a JSON value type
(integers stand in for JSON numbers; strings are escaped as `json.dumps`
does for `"`, `\` and control characters, leaving other characters raw as
with `ensure_ascii=False` — an encoding `json.loads` accepts unchanged). -/

inductive Json where
  | null : Json
  | bool (b : Bool) : Json
  | num (n : Int) : Json
  | str (s : String) : Json
  | arr (l : List Json) : Json
  | obj (l : List (String × Json)) : Json

/-- Opening brace character. -/
def lbrace : Char := Char.ofNat 123

/-- Closing brace character. -/
def rbrace : Char := Char.ofNat 125

/-- Lower-case hexadecimal digit character for `n < 16`. -/
def hexDigitChar (n : Nat) : Char :=
  if n < 10 then Char.ofNat (48 + n) else Char.ofNat (87 + n)

/-- String-literal escaping of one character, as the serializer emits it. -/
def escChar (c : Char) : List Char :=
  if c = '"' then ['\\', '"']
  else if c = '\\' then ['\\', '\\']
  else if c.toNat < 32 then
    ['\\', 'u', '0', '0', hexDigitChar (c.toNat / 16), hexDigitChar (c.toNat % 16)]
  else [c]

/-- Serialized form of a string, including the surrounding quotes. -/
def escStr (s : String) : List Char :=
  '"' :: (s.data.flatMap escChar ++ ['"'])

/-- Decimal rendering of an integer. -/
def intChars (n : Int) : List Char :=
  match n with
  | .ofNat m => natDigs m
  | .negSucc m => '-' :: natDigs (m + 1)

mutual

def printVal : Json → List Char
  | .null => "null".data
  | .bool b => (if b then "true" else "false").data
  | .num n => intChars n
  | .str s => escStr s
  | .arr l => '[' :: (printArr l ++ [']'])
  | .obj l => lbrace :: (printObj l ++ [rbrace])

def printArr : List Json → List Char
  | [] => []
  | [x] => printVal x
  | x :: y :: rest => printVal x ++ ',' :: ' ' :: printArr (y :: rest)

def printObj : List (String × Json) → List Char
  | [] => []
  | [(k, v)] => escStr k ++ ':' :: ' ' :: printVal v
  | (k, v) :: p :: rest =>
    escStr k ++ ':' :: ' ' :: printVal v ++ ',' :: ' ' :: printObj (p :: rest)

end

/-- The modelled `json.dumps` (default separators `", "` and `": "`). -/
def dumps (j : Json) : String := String.mk (printVal j)

/-- JSON whitespace. -/
def isWs (c : Char) : Bool := c == ' ' || c == '\n' || c == '\t' || c == '\r'

/-- Drop leading JSON whitespace. -/
def skipWs : List Char → List Char
  | [] => []
  | c :: rest => if isWs c then skipWs rest else c :: rest

/-- Expect the literal characters `ps` at the front of the input. -/
def expectLit : List Char → List Char → Option (List Char)
  | [], l => some l
  | _ :: _, [] => none
  | p :: ps, c :: l => if c = p then expectLit ps l else none

/-- Value of one hexadecimal digit character. -/
def hexVal (c : Char) : Option Nat :=
  if 48 ≤ c.toNat ∧ c.toNat ≤ 57 then some (c.toNat - 48)
  else if 97 ≤ c.toNat ∧ c.toNat ≤ 102 then some (c.toNat - 87)
  else if 65 ≤ c.toNat ∧ c.toNat ≤ 70 then some (c.toNat - 55)
  else none

/-- Decode one escape sequence (the input starts just after the backslash);
returns the decoded character and the rest of the input. -/
def parseEsc : List Char → Option (Char × List Char)
  | [] => none
  | e :: rest =>
    if e = '"' then some ('"', rest)
    else if e = '\\' then some ('\\', rest)
    else if e = '/' then some ('/', rest)
    else if e = 'b' then some (Char.ofNat 8, rest)
    else if e = 'f' then some (Char.ofNat 12, rest)
    else if e = 'n' then some ('\n', rest)
    else if e = 'r' then some ('\r', rest)
    else if e = 't' then some ('\t', rest)
    else if e = 'u' then
      match rest with
      | h1 :: h2 :: h3 :: h4 :: rest2 =>
        match hexVal h1, hexVal h2, hexVal h3, hexVal h4 with
        | some a, some b, some c, some d =>
          some (Char.ofNat (((a * 16 + b) * 16 + c) * 16 + d), rest2)
        | _, _, _, _ => none
      | _ => none
    else none

/-- Parse a string body up to and over the closing quote; `fu` is fuel
(input length plus one always suffices). -/
def parseStrBody : Nat → List Char → Option (List Char × List Char)
  | 0, _ => none
  | _ + 1, [] => none
  | fu + 1, c :: rest =>
    if c = '"' then some ([], rest)
    else if c = '\\' then
      match parseEsc rest with
      | some (ch, r) => (parseStrBody fu r).map (fun p => (ch :: p.1, p.2))
      | none => none
    else (parseStrBody fu rest).map (fun p => (c :: p.1, p.2))

/-- Consume a maximal run of decimal digits, folding them onto `acc`. -/
def parseDigits : Nat → List Char → Nat × List Char
  | acc, [] => (acc, [])
  | acc, c :: rest =>
    if c.isDigit then parseDigits (acc * 10 + (c.toNat - 48)) rest else (acc, c :: rest)

/-- Parse a nonempty run of decimal digits. -/
def parseNatChars : List Char → Option (Nat × List Char)
  | [] => none
  | c :: rest => if c.isDigit then some (parseDigits (c.toNat - 48) rest) else none

mutual

def parseVal : Nat → List Char → Option (Json × List Char)
  | 0, _ => none
  | fu + 1, l =>
    match skipWs l with
    | [] => none
    | c :: rest =>
      if c = 'n' then (expectLit ['u', 'l', 'l'] rest).map (fun r => (Json.null, r))
      else if c = 't' then (expectLit ['r', 'u', 'e'] rest).map (fun r => (Json.bool true, r))
      else if c = 'f' then
        (expectLit ['a', 'l', 's', 'e'] rest).map (fun r => (Json.bool false, r))
      else if c = '"' then
        (parseStrBody (rest.length + 1) rest).map (fun p => (Json.str (String.mk p.1), p.2))
      else if c = '-' then
        (parseNatChars rest).map (fun p => (Json.num (-(p.1 : Int)), p.2))
      else if c = '[' then
        match skipWs rest with
        | [] => none
        | c2 :: rest2 =>
          if c2 = ']' then some (Json.arr [], rest2)
          else (parseArrItems fu (c2 :: rest2)).map (fun p => (Json.arr p.1, p.2))
      else if c = lbrace then
        match skipWs rest with
        | [] => none
        | c2 :: rest2 =>
          if c2 = rbrace then some (Json.obj [], rest2)
          else (parseObjItems fu (c2 :: rest2)).map (fun p => (Json.obj p.1, p.2))
      else if c.isDigit then
        (parseNatChars (c :: rest)).map (fun p => (Json.num (p.1 : Int), p.2))
      else none

def parseArrItems : Nat → List Char → Option (List Json × List Char)
  | 0, _ => none
  | fu + 1, l =>
    match parseVal fu l with
    | some (v, rest) =>
      match skipWs rest with
      | [] => none
      | c :: rest2 =>
        if c = ',' then
          match parseArrItems fu (skipWs rest2) with
          | some (vs, rest3) => some (v :: vs, rest3)
          | none => none
        else if c = ']' then some ([v], rest2)
        else none
    | none => none

def parseObjItems : Nat → List Char → Option (List (String × Json) × List Char)
  | 0, _ => none
  | fu + 1, l =>
    match l with
    | [] => none
    | c :: rest =>
      if c = '"' then
        match parseStrBody (rest.length + 1) rest with
        | some (key, rest2) =>
          match skipWs rest2 with
          | [] => none
          | c2 :: rest3 =>
            if c2 = ':' then
              match parseVal fu (skipWs rest3) with
              | some (v, rest4) =>
                match skipWs rest4 with
                | [] => none
                | c3 :: rest5 =>
                  if c3 = ',' then
                    match parseObjItems fu (skipWs rest5) with
                    | some (kvs, rest6) => some ((String.mk key, v) :: kvs, rest6)
                    | none => none
                  else if c3 = rbrace then some ([(String.mk key, v)], rest5)
                  else none
              | none => none
            else none
        | none => none
      else none

end

/-- The modelled `json.loads`: parse a complete value, allowing leading and
trailing whitespace only. -/
def loads (s : String) : Option Json :=
  match parseVal (s.length + 1) s.data with
  | some (j, rest) => if skipWs rest = [] then some j else none
  | none => none

/-- Input that does not continue a digit run (used to state that a printed
number followed by such input parses back unambiguously). -/
def notDigitStart : List Char → Prop
  | [] => True
  | c :: _ => c.isDigit = false

theorem digitChar_isDigit {n : Nat} (h : n < 10) : (digitChar n).isDigit = true := by
  interval_cases n <;> rfl

theorem digitChar_toNat {n : Nat} (h : n < 10) : (digitChar n).toNat = 48 + n := by
  interval_cases n <;> rfl

theorem isDigit_toNat {c : Char} (h : c.isDigit = true) : 48 ≤ c.toNat ∧ c.toNat ≤ 57 := by
  simpa [Char.isDigit] using h

theorem natDigsF_ne_nil_digits :
    ∀ (fu n : Nat), n < fu →
      natDigsF fu n ≠ [] ∧ ∀ c ∈ natDigsF fu n, c.isDigit = true := by
  intro fu
  induction fu with
  | zero => intro n h; omega
  | succ fu ih =>
    intro n h
    by_cases h10 : n < 10
    · simp [natDigsF, h10, digitChar_isDigit h10]
    · have hdiv : n / 10 < fu := by
        have h1 : n / 10 < n := Nat.div_lt_self (by omega) (by omega)
        omega
      obtain ⟨hne, hdig⟩ := ih (n / 10) hdiv
      refine ⟨?_, ?_⟩
      · simp [natDigsF, h10]
      · intro c hc
        simp only [natDigsF, if_neg h10, List.mem_append, List.mem_singleton] at hc
        rcases hc with hc | hc
        · exact hdig c hc
        · subst hc; exact digitChar_isDigit (Nat.mod_lt _ (by omega))

theorem natDigs_ne_nil (n : Nat) : natDigs n ≠ [] :=
  (natDigsF_ne_nil_digits (n + 1) n (Nat.lt_succ_self n)).1

theorem natDigs_digits (n : Nat) : ∀ c ∈ natDigs n, c.isDigit = true :=
  (natDigsF_ne_nil_digits (n + 1) n (Nat.lt_succ_self n)).2

theorem parseDigits_digits_append (ds : List Char) (hds : ∀ c ∈ ds, c.isDigit = true) :
    ∀ (acc : Nat) (rest : List Char),
      parseDigits acc (ds ++ rest) =
        parseDigits (ds.foldl (fun a c => a * 10 + (c.toNat - 48)) acc) rest := by
  induction ds with
  | nil => intro acc rest; rfl
  | cons c cs ih =>
    intro acc rest
    have hc : c.isDigit = true := hds c (List.mem_cons_self c cs)
    simp only [List.cons_append, parseDigits, hc, if_true, List.foldl_cons]
    exact ih (fun d hd => hds d (List.mem_cons_of_mem c hd)) _ rest

theorem parseDigits_stop (acc : Nat) (rest : List Char) (h : notDigitStart rest) :
    parseDigits acc rest = (acc, rest) := by
  cases rest with
  | nil => rfl
  | cons c r => simp only [notDigitStart] at h; simp [parseDigits, h]

theorem natDigsF_foldl :
    ∀ (fu n : Nat), n < fu → ∀ acc : Nat,
      (natDigsF fu n).foldl (fun a c => a * 10 + (c.toNat - 48)) acc =
        acc * 10 ^ (natDigsF fu n).length + n := by
  intro fu
  induction fu with
  | zero => intro n h; omega
  | succ fu ih =>
    intro n h acc
    by_cases h10 : n < 10
    · simp [natDigsF, h10, digitChar_toNat h10]
    · have hdiv : n / 10 < fu := by
        have h1 : n / 10 < n := Nat.div_lt_self (by omega) (by omega)
        omega
      have hmod : n % 10 < 10 := Nat.mod_lt _ (by omega)
      simp only [natDigsF, if_neg h10, List.foldl_append, List.foldl_cons, List.foldl_nil,
        List.length_append, List.length_cons, List.length_nil, ih (n / 10) hdiv acc,
        digitChar_toNat hmod]
      have h48 : 48 + n % 10 - 48 = n % 10 := by omega
      have hdm : n / 10 * 10 + n % 10 = n := by omega
      have hkey : (acc * 10 ^ (natDigsF fu (n / 10)).length + n / 10) * 10 + n % 10 =
          acc * (10 ^ (natDigsF fu (n / 10)).length * 10) + (n / 10 * 10 + n % 10) := by
        ring
      rw [h48, hkey, hdm, Nat.pow_add]

theorem parseNatChars_natDigs (n : Nat) (rest : List Char) (h : notDigitStart rest) :
    parseNatChars (natDigs n ++ rest) = some (n, rest) := by
  cases hnd : natDigs n with
  | nil => exact absurd hnd (natDigs_ne_nil n)
  | cons d ds =>
    have hdig : ∀ c ∈ natDigs n, c.isDigit = true := natDigs_digits n
    rw [hnd] at hdig
    have hd : d.isDigit = true := hdig d (List.mem_cons_self d ds)
    have hds : ∀ c ∈ ds, c.isDigit = true := fun c hc => hdig c (List.mem_cons_of_mem d hc)
    simp only [List.cons_append, parseNatChars, hd, if_true]
    rw [parseDigits_digits_append ds hds _ rest, parseDigits_stop _ _ h]
    have hfold : (natDigs n).foldl (fun a c => a * 10 + (c.toNat - 48)) 0 = n := by
      have := natDigsF_foldl (n + 1) n (Nat.lt_succ_self n) 0
      simpa [natDigs] using this
    rw [hnd] at hfold
    simp only [List.foldl_cons] at hfold
    simp only [Nat.zero_mul, Nat.zero_add] at hfold
    rw [hfold]

theorem hexVal_hexDigitChar {v : Nat} (h : v < 16) : hexVal (hexDigitChar v) = some v := by
  interval_cases v <;> rfl

theorem isDigit_facts {c : Char} (h : c.isDigit = true) :
    isWs c = false ∧ c ≠ 'n' ∧ c ≠ 't' ∧ c ≠ 'f' ∧ c ≠ '"' ∧ c ≠ '-' ∧ c ≠ '[' ∧
      c ≠ lbrace ∧ c ≠ ']' ∧ c ≠ rbrace ∧ c ≠ ',' := by
  obtain ⟨h1, h2⟩ := isDigit_toNat h
  have hne : ∀ (d : Char) (v : Nat), d.toNat = v → v < 48 ∨ 57 < v → c ≠ d := by
    intro d v hv hout he
    subst he
    omega
  refine ⟨?_, hne 'n' 110 rfl (by omega), hne 't' 116 rfl (by omega),
    hne 'f' 102 rfl (by omega), hne '"' 34 rfl (by omega), hne '-' 45 rfl (by omega),
    hne '[' 91 rfl (by omega), hne lbrace 123 rfl (by omega), hne ']' 93 rfl (by omega),
    hne rbrace 125 rfl (by omega), hne ',' 44 rfl (by omega)⟩
  have hsp := hne ' ' 32 rfl (by omega)
  have hnl := hne '\n' 10 rfl (by omega)
  have htb := hne '\t' 9 rfl (by omega)
  have hcr := hne '\r' 13 rfl (by omega)
  simp [isWs, hsp, hnl, htb, hcr]

theorem parseStrBody_rt :
    ∀ (cs : List Char) (fu : Nat) (rest : List Char),
      (cs.flatMap escChar).length < fu →
      parseStrBody fu (cs.flatMap escChar ++ '"' :: rest) = some (cs, rest) := by
  intro cs
  induction cs with
  | nil =>
    intro fu rest hfu
    cases fu with
    | zero => simp at hfu
    | succ f => rfl
  | cons c cs ih =>
    intro fu rest hfu
    rw [List.flatMap_cons] at hfu ⊢
    by_cases hq : c = '"'
    · subst hq
      have hesc : escChar '"' = ['\\', '"'] := rfl
      rw [hesc] at hfu ⊢
      cases fu with
      | zero => simp at hfu
      | succ f =>
        have hlen : ((cs.flatMap escChar).length < f) := by
          simp only [List.length_append, List.length_cons] at hfu
          omega
        simp [parseStrBody, parseEsc, ih f rest hlen]
    · by_cases hb : c = '\\'
      · subst hb
        have hesc : escChar '\\' = ['\\', '\\'] := rfl
        rw [hesc] at hfu ⊢
        cases fu with
        | zero => simp at hfu
        | succ f =>
          have hlen : ((cs.flatMap escChar).length < f) := by
            simp only [List.length_append, List.length_cons] at hfu
            omega
          simp [parseStrBody, parseEsc, ih f rest hlen]
      · by_cases hc : c.toNat < 32
        · have hesc : escChar c =
              ['\\', 'u', '0', '0', hexDigitChar (c.toNat / 16), hexDigitChar (c.toNat % 16)] := by
            simp only [escChar, if_neg hq, if_neg hb, if_pos hc]
          rw [hesc] at hfu ⊢
          cases fu with
          | zero => simp at hfu
          | succ f =>
            have hlen : ((cs.flatMap escChar).length < f) := by
              simp only [List.length_append, List.length_cons] at hfu
              omega
            have hdiv : c.toNat / 16 < 16 := by omega
            have hmod : c.toNat % 16 < 16 := by omega
            have hval : ((0 * 16 + 0) * 16 + c.toNat / 16) * 16 + c.toNat % 16 = c.toNat := by
              omega
            have h0 : hexVal '0' = some 0 := rfl
            simp [parseStrBody, parseEsc, h0, hexVal_hexDigitChar hdiv,
              hexVal_hexDigitChar hmod, hval, Char.ofNat_toNat, ih f rest hlen]
            have hval2 : c.toNat / 16 * 16 + c.toNat % 16 = c.toNat := by omega
            rw [hval2, Char.ofNat_toNat]
        · have hesc : escChar c = [c] := by
            simp only [escChar, if_neg hq, if_neg hb, if_neg hc]
          rw [hesc] at hfu ⊢
          cases fu with
          | zero => simp at hfu
          | succ f =>
            have hlen : ((cs.flatMap escChar).length < f) := by
              simp only [List.length_append, List.length_cons] at hfu
              omega
            simp [parseStrBody, hq, hb, ih f rest hlen]

theorem skipWs_cons {c : Char} (h : isWs c = false) (l : List Char) :
    skipWs (c :: l) = c :: l := by
  simp [skipWs, h]

theorem printVal_head (j : Json) :
    ∃ c cs, printVal j = c :: cs ∧ isWs c = false ∧ c ≠ ']' ∧ c ≠ rbrace ∧ c ≠ ',' := by
  cases j with
  | null => exact ⟨'n', _, rfl, rfl, by decide, by decide, by decide⟩
  | bool b =>
    cases b with
    | true => exact ⟨'t', _, rfl, rfl, by decide, by decide, by decide⟩
    | false => exact ⟨'f', _, rfl, rfl, by decide, by decide, by decide⟩
  | num n =>
    cases n with
    | ofNat m =>
      rcases hnd : natDigs m with _ | ⟨d, ds⟩
      · exact absurd hnd (natDigs_ne_nil m)
      · have hdig : d.isDigit = true :=
          natDigs_digits m d (by rw [hnd]; exact List.mem_cons_self d ds)
        obtain ⟨hws, _, _, _, _, _, _, _, hbr, hrb, hcm⟩ := isDigit_facts hdig
        exact ⟨d, ds, by simp [printVal, intChars, hnd], hws, hbr, hrb, hcm⟩
    | negSucc m => exact ⟨'-', _, rfl, rfl, by decide, by decide, by decide⟩
  | str s => exact ⟨'"', _, rfl, rfl, by decide, by decide, by decide⟩
  | arr l => exact ⟨'[', _, rfl, rfl, by decide, by decide, by decide⟩
  | obj l => exact ⟨lbrace, _, rfl, rfl, by decide, by decide, by decide⟩

theorem printVal_length_pos (j : Json) : 0 < (printVal j).length := by
  obtain ⟨c, cs, hj, _⟩ := printVal_head j
  simp [hj]

theorem skipWs_printVal (j : Json) (A : List Char) :
    skipWs (printVal j ++ A) = printVal j ++ A := by
  obtain ⟨c, cs, hj, hws, _⟩ := printVal_head j
  rw [hj, List.cons_append, skipWs_cons hws]

theorem printArr_head (x : Json) (xs : List Json) :
    ∃ c cs, printArr (x :: xs) = c :: cs ∧ isWs c = false ∧ c ≠ ']' ∧ c ≠ rbrace ∧ c ≠ ',' := by
  obtain ⟨c, cs, hx, hws, hbr, hrb, hcm⟩ := printVal_head x
  cases xs with
  | nil => exact ⟨c, cs, by simp [printArr, hx], hws, hbr, hrb, hcm⟩
  | cons y ys =>
    exact ⟨c, cs ++ ',' :: ' ' :: printArr (y :: ys), by simp [printArr, hx], hws, hbr, hrb, hcm⟩

theorem notDigitStart_rbracket (r : List Char) : notDigitStart (']' :: r) := rfl

theorem notDigitStart_rbrace (r : List Char) : notDigitStart (rbrace :: r) := rfl

theorem notDigitStart_comma (r : List Char) : notDigitStart (',' :: r) := rfl

theorem skipWs_space (l : List Char) : skipWs (' ' :: l) = skipWs l := rfl

theorem printObj_head (k : String) (v : Json) (xs : List (String × Json)) :
    ∃ cs, printObj ((k, v) :: xs) = '"' :: cs := by
  cases xs with
  | nil => exact ⟨_, rfl⟩
  | cons p ps => exact ⟨_, rfl⟩

theorem escStr_length (s : String) : (escStr s).length = (s.data.flatMap escChar).length + 2 := by
  simp [escStr]

/-- Round trip of the printer and the fuel-indexed parser: a printed value
followed by input that does not extend a digit run parses back to itself. -/
theorem parse_print_all : ∀ fu : Nat,
    (∀ (j : Json) (rest : List Char), (printVal j).length < fu → notDigitStart rest →
      parseVal fu (printVal j ++ rest) = some (j, rest)) ∧
    (∀ (l : List Json) (rest : List Char), l ≠ [] → (printArr l).length + 1 < fu →
      parseArrItems fu (printArr l ++ ']' :: rest) = some (l, rest)) ∧
    (∀ (l : List (String × Json)) (rest : List Char), l ≠ [] → (printObj l).length + 1 < fu →
      parseObjItems fu (printObj l ++ rbrace :: rest) = some (l, rest)) := by
  intro fu
  induction fu with
  | zero =>
    exact ⟨fun j rest h _ => absurd h (Nat.not_lt_zero _),
      fun l rest _ h => absurd h (Nat.not_lt_zero _),
      fun l rest _ h => absurd h (Nat.not_lt_zero _)⟩
  | succ fu ih =>
    obtain ⟨ihV, ihA, ihO⟩ := ih
    refine ⟨?_, ?_, ?_⟩
    · intro j rest hfu hrest
      cases j with
      | null => rfl
      | bool b => cases b <;> rfl
      | num n =>
        cases n with
        | ofNat m =>
          rcases hnd : natDigs m with _ | ⟨d, ds⟩
          · exact absurd hnd (natDigs_ne_nil m)
          have hdig : d.isDigit = true :=
            natDigs_digits m d (by rw [hnd]; exact List.mem_cons_self d ds)
          obtain ⟨hws, hn, ht, hf, hq, hm, hlb, hbrace, _, _, _⟩ := isDigit_facts hdig
          have hpv : printVal (Json.num (Int.ofNat m)) = natDigs m := rfl
          rw [hpv, hnd, List.cons_append]
          simp only [parseVal, skipWs_cons hws]
          rw [if_neg hn, if_neg ht, if_neg hf, if_neg hq, if_neg hm, if_neg hlb,
            if_neg hbrace, if_pos hdig]
          rw [← List.cons_append, ← hnd, parseNatChars_natDigs m rest hrest]
          rfl
        | negSucc m =>
          have hpv : printVal (Json.num (Int.negSucc m)) = '-' :: natDigs (m + 1) := rfl
          rw [hpv, List.cons_append]
          simp only [parseVal, skipWs_cons (show isWs '-' = false from rfl)]
          rw [if_neg (by decide), if_neg (by decide), if_neg (by decide), if_neg (by decide),
            if_pos (by trivial)]
          rw [parseNatChars_natDigs (m + 1) rest hrest]
          have hns : (-((m + 1 : Nat) : Int)) = Int.negSucc m := by
            rw [Int.negSucc_eq]
            push_cast
            ring
          show some (Json.num (-((m + 1 : Nat) : Int)), rest) =
            some (Json.num (Int.negSucc m), rest)
          rw [hns]
      | str s =>
        have hpv : printVal (Json.str s) ++ rest =
            '"' :: (s.data.flatMap escChar ++ '"' :: rest) := by
          simp [printVal, escStr]
        rw [hpv]
        simp only [parseVal, skipWs_cons (show isWs '"' = false from rfl)]
        rw [if_neg (by decide), if_neg (by decide), if_neg (by decide), if_pos (by trivial)]
        rw [parseStrBody_rt s.data _ rest (by simp [List.length_append]; omega)]
        rfl
      | arr l =>
        cases l with
        | nil => rfl
        | cons x xs =>
          obtain ⟨c2, cs2, hpa, hws2, hbr2, _, _⟩ := printArr_head x xs
          have hfu2 : (printArr (x :: xs)).length + 1 < fu := by
            have hh : (printVal (Json.arr (x :: xs))).length = (printArr (x :: xs)).length + 2 := by
              simp [printVal]
            omega
          have hpv : printVal (Json.arr (x :: xs)) ++ rest =
              '[' :: (printArr (x :: xs) ++ ']' :: rest) := by
            simp [printVal]
          rw [hpv]
          simp only [parseVal, skipWs_cons (show isWs '[' = false from rfl)]
          rw [if_neg (by decide), if_neg (by decide), if_neg (by decide), if_neg (by decide),
            if_neg (by decide), if_pos (by trivial)]
          rw [hpa, List.cons_append, skipWs_cons hws2]
          simp only []
          rw [if_neg hbr2, ← List.cons_append, ← hpa,
            ihA (x :: xs) rest (by simp) hfu2]
          rfl
      | obj l =>
        cases l with
        | nil => rfl
        | cons kv xs =>
          obtain ⟨k, v⟩ := kv
          obtain ⟨cs2, hpo⟩ := printObj_head k v xs
          have hfu2 : (printObj ((k, v) :: xs)).length + 1 < fu := by
            have hh : (printVal (Json.obj ((k, v) :: xs))).length =
                (printObj ((k, v) :: xs)).length + 2 := by
              simp [printVal]
            omega
          have hpv : printVal (Json.obj ((k, v) :: xs)) ++ rest =
              lbrace :: (printObj ((k, v) :: xs) ++ rbrace :: rest) := by
            simp [printVal]
          rw [hpv]
          simp only [parseVal, skipWs_cons (show isWs lbrace = false from rfl)]
          rw [if_neg (by decide), if_neg (by decide), if_neg (by decide), if_neg (by decide),
            if_neg (by decide), if_neg (by decide), if_pos (by trivial)]
          rw [hpo, List.cons_append, skipWs_cons (show isWs '"' = false from rfl)]
          simp only []
          rw [if_neg (by decide), ← List.cons_append, ← hpo,
            ihO ((k, v) :: xs) rest (by simp) hfu2]
          rfl
    · intro l rest hne hfu
      cases l with
      | nil => exact absurd rfl hne
      | cons x xs =>
        cases xs with
        | nil =>
          have hfux : (printVal x).length < fu := by
            have hh : printArr [x] = printVal x := rfl
            rw [hh] at hfu
            omega
          show parseArrItems (fu + 1) (printVal x ++ ']' :: rest) = some ([x], rest)
          simp only [parseArrItems]
          rw [ihV x (']' :: rest) hfux (notDigitStart_rbracket rest)]
          rfl
        | cons y ys =>
          have hxpos := printVal_length_pos x
          have hlen : (printArr (x :: y :: ys)).length =
              (printVal x).length + 2 + (printArr (y :: ys)).length := by
            simp [printArr]
            omega
          have hfux : (printVal x).length < fu := by omega
          have hfuy : (printArr (y :: ys)).length + 1 < fu := by omega
          have hshape : printArr (x :: y :: ys) ++ ']' :: rest =
              printVal x ++ ',' :: ' ' :: (printArr (y :: ys) ++ ']' :: rest) := by
            simp [printArr]
          rw [hshape]
          simp only [parseArrItems]
          rw [ihV x _ hfux (notDigitStart_comma _)]
          simp only [skipWs_cons (show isWs ',' = false from rfl)]
          rw [if_pos (by trivial)]
          have hsk : skipWs (' ' :: (printArr (y :: ys) ++ ']' :: rest)) =
              printArr (y :: ys) ++ ']' :: rest := by
            obtain ⟨c3, cs3, hpa3, hws3, _, _, _⟩ := printArr_head y ys
            rw [skipWs_space, hpa3, List.cons_append, skipWs_cons hws3]
          rw [hsk, ihA (y :: ys) rest (by simp) hfuy]
    · intro l rest hne hfu
      cases l with
      | nil => exact absurd rfl hne
      | cons kv xs =>
        obtain ⟨k, v⟩ := kv
        have hvpos := printVal_length_pos v
        cases xs with
        | nil =>
          have hlen : (printObj [(k, v)]).length =
              (escStr k).length + 2 + (printVal v).length := by
            simp [printObj]
            omega
          have hfuv : (printVal v).length < fu := by
            rw [escStr_length] at hlen
            omega
          have hshape : printObj [(k, v)] ++ rbrace :: rest =
              '"' :: (k.data.flatMap escChar ++
                '"' :: (':' :: ' ' :: (printVal v ++ rbrace :: rest))) := by
            simp [printObj, escStr]
          rw [hshape]
          simp only [parseObjItems]
          rw [if_pos (by trivial)]
          rw [parseStrBody_rt k.data _ _ (by simp [List.length_append]; omega)]
          simp only [skipWs_cons (show isWs ':' = false from rfl)]
          rw [if_pos (by trivial)]
          have hsk : skipWs (' ' :: (printVal v ++ rbrace :: rest)) =
              printVal v ++ rbrace :: rest := by
            rw [skipWs_space, skipWs_printVal]
          rw [hsk, ihV v (rbrace :: rest) hfuv (notDigitStart_rbrace rest)]
          rfl
        | cons p ps =>
          obtain ⟨k2, v2⟩ := p
          have hlen : (printObj ((k, v) :: (k2, v2) :: ps)).length =
              (escStr k).length + 2 + (printVal v).length + 2 +
                (printObj ((k2, v2) :: ps)).length := by
            simp [printObj]
            omega
          have hkl := escStr_length k
          have hfuv : (printVal v).length < fu := by omega
          have hfup : (printObj ((k2, v2) :: ps)).length + 1 < fu := by omega
          have hshape : printObj ((k, v) :: (k2, v2) :: ps) ++ rbrace :: rest =
              '"' :: (k.data.flatMap escChar ++
                '"' :: (':' :: ' ' :: (printVal v ++
                  ',' :: ' ' :: (printObj ((k2, v2) :: ps) ++ rbrace :: rest)))) := by
            simp [printObj, escStr]
          rw [hshape]
          simp only [parseObjItems]
          rw [if_pos (by trivial)]
          rw [parseStrBody_rt k.data _ _ (by simp [List.length_append]; omega)]
          simp only [skipWs_cons (show isWs ':' = false from rfl)]
          rw [if_pos (by trivial)]
          have hsk : skipWs (' ' :: (printVal v ++
              ',' :: ' ' :: (printObj ((k2, v2) :: ps) ++ rbrace :: rest))) =
              printVal v ++ ',' :: ' ' :: (printObj ((k2, v2) :: ps) ++ rbrace :: rest) := by
            rw [skipWs_space, skipWs_printVal]
          rw [hsk, ihV v _ hfuv (notDigitStart_comma _)]
          simp only [skipWs_cons (show isWs ',' = false from rfl)]
          rw [if_pos (by trivial)]
          have hsk2 : skipWs (' ' :: (printObj ((k2, v2) :: ps) ++ rbrace :: rest)) =
              printObj ((k2, v2) :: ps) ++ rbrace :: rest := by
            obtain ⟨cs3, hpo3⟩ := printObj_head k2 v2 ps
            rw [skipWs_space, hpo3, List.cons_append,
              skipWs_cons (show isWs '"' = false from rfl)]
          rw [hsk2, ihO ((k2, v2) :: ps) rest (by simp) hfup]

/-- The modelled `json.loads` inverts the modelled `json.dumps`. -/
theorem loads_dumps (j : Json) : loads (dumps j) = some j := by
  unfold loads dumps
  have hdata : (String.mk (printVal j)).data = printVal j := rfl
  have hlen : (String.mk (printVal j)).length = (printVal j).length := rfl
  rw [hdata, hlen]
  have h := (parse_print_all ((printVal j).length + 1)).1 j [] (by omega) trivial
  rw [List.append_nil] at h
  rw [h]
  rfl

/-- The `ref` argument of `publish`: `None`, a `dict`, or a plain string. -/
inductive RefArg where
  | none : RefArg
  | dict (d : List (String × Json)) : RefArg
  | str (s : String) : RefArg

/-- The reference string `publish` sends to the store:
`ref = ref if ref else "\x7b\x7d"` (so `None`, the empty dict and the empty
string — all falsy — become the literal string `"\x7b\x7d"`), then
`json.dumps(ref) if isinstance(ref, dict) else ref`. -/
def refEncode : RefArg → String
  | RefArg.none => "\x7b\x7d"
  | RefArg.dict [] => "\x7b\x7d"
  | RefArg.dict d => dumps (Json.obj d)
  | RefArg.str s => if s = "" then "\x7b\x7d" else s

/-- What `get_hist_weights` reports for a reference: the decoded JSON value,
or (when `json.loads` raises) the raw stored string; `missing` stands for
the `None` a reader gets back when the record itself is absent. -/
inductive RefOut where
  | jval (j : Json) : RefOut
  | raw (s : String) : RefOut
  | missing : RefOut

/-- The reader's `try: ref = json.loads(ref) except: ref = ref`. -/
def refRead (s : String) : RefOut :=
  match loads s with
  | some j => RefOut.jval j
  | Option.none => RefOut.raw s

/-- Redis `ZRANGEBYSCORE` on a SymbolIndex, inclusive on both ends. -/
def zrangebyscore (st : Store) (sk : SKey) (a b : Nat) : List EvKey :=
  (((alookup st.zidx sk).getD []).filter (fun p => decide (a ≤ p.1 ∧ p.1 ≤ b))).map (·.2)

/-- One row of the `get_hist_weights` result. -/
structure HistRow where
  strategy_name : String
  symbol : String
  dt : Nat
  weight : Option Rat
  price : Option Rat
  ref : RefOut

/-- The `get_hist_weights` reader: range-query the SymbolIndex, return empty
on an empty range, otherwise fetch each record's weight/price/ref (an absent
record yields `None` fields) and sort rows by time. -/
def getHistWeights (st : Store) (kpre strat sym : String) (sdt edt : Nat) : List HistRow :=
  let key_list := zrangebyscore st ⟨kpre, strat, sym⟩ sdt edt
  if key_list.length = 0 then []
  else
    List.insertionSort (fun a b : HistRow => a.dt ≤ b.dt)
      (key_list.map (fun k =>
        match alookup st.recs k with
        | some r => ⟨strat, sym, k.t, some r.weight, some r.price, refRead r.ref⟩
        | Option.none => ⟨strat, sym, k.t, Option.none, Option.none, RefOut.missing⟩))

/-- The `publish` method: with `overwrite=False`, fetch the symbol's
LastPointer and return 0 when the new event time is not strictly later;
otherwise invoke the Lua publish transaction on the single key. -/
def publish (st : Store) (kpre strat sym : String) (dt : Nat) (weight price : Rat)
    (ref : RefArg) (ow : Bool) (udt : String) : Store × Nat :=
  let doPub := luaPublish ow udt st [(⟨kpre, strat, sym, dt⟩, ⟨weight, price, refEncode ref⟩)]
  if ow then doPub
  else
    match alookup st.lasts ⟨kpre, strat, sym⟩ with
    | some r => if dt ≤ r.dt then (st, 0) else doPub
    | Option.none => doPub

/-- C2: a non-overwrite publish whose event time is not strictly later than
the symbol's LastPointer time returns 0 and leaves the store untouched — in
particular the Lua publish transaction is never invoked (no record, index,
pointer or broadcast change) and no error is raised (the function is total;
the code path only logs a warning). -/
theorem C2_publish_stale (st : Store) (kpre strat sym : String) (dt : Nat)
    (weight price : Rat) (ref : RefArg) (udt : String) (r : WeightRec)
    (hlast : alookup st.lasts ⟨kpre, strat, sym⟩ = some r) (hdt : dt ≤ r.dt) :
    publish st kpre strat sym dt weight price ref false udt = (st, 0) := by
  simp [publish, hlast, hdt]

/-- Witness for C2: a store holding a LastPointer at time 5 rejects a
non-overwrite publish at time 5. -/
theorem C2_publish_stale_witness :
    publish ⟨[], [(⟨"W", "S", "A"⟩, mkRec ⟨"W", "S", "A", 5⟩ ⟨1, 0, "r"⟩ "u")],
        [], [], [], [], [], []⟩ "W" "S" "A" 5 2 0 RefArg.none false "u2" =
      (⟨[], [(⟨"W", "S", "A"⟩, mkRec ⟨"W", "S", "A", 5⟩ ⟨1, 0, "r"⟩ "u")],
        [], [], [], [], [], []⟩, 0) :=
  C2_publish_stale _ "W" "S" "A" 5 2 0 RefArg.none "u2" _ rfl (by decide)

/-- C7: a history query whose SymbolIndex range scan matches no keys
returns the empty result (and, the function being total, raises no error;
the code only logs a warning). -/
theorem C7_history_empty (st : Store) (kpre strat sym : String) (sdt edt : Nat)
    (h : zrangebyscore st ⟨kpre, strat, sym⟩ sdt edt = []) :
    getHistWeights st kpre strat sym sdt edt = [] := by
  unfold getHistWeights
  rw [h]
  rfl

/-- Witness for C7: an empty store yields an empty range and an empty
history result. -/
theorem C7_history_empty_witness :
    getHistWeights Store.empty "W" "S" "A" 20210101000000 20220101000000 = [] :=
  C7_history_empty Store.empty "W" "S" "A" 20210101000000 20220101000000 rfl

/-- C10 counterexample: the empty string is a reference that fails JSON
decoding (`json.loads("")` raises), yet it is not returned unchanged — being
falsy it is stored as the string `"\x7b\x7d"` and reads back as the empty
dict, not as the raw empty string. -/
theorem C10_counterexample :
    loads "" = Option.none ∧
    refRead (refEncode (RefArg.str "")) = RefOut.jval (Json.obj []) ∧
    refRead (refEncode (RefArg.str "")) ≠ RefOut.raw "" := by
  refine ⟨rfl, rfl, ?_⟩
  have h2 : refRead (refEncode (RefArg.str "")) = RefOut.jval (Json.obj []) := rfl
  rw [h2]
  exact fun h => RefOut.noConfusion h

/-- C10 (amended): a dict reference payload round-trips through publish's
JSON serialization and the reader's JSON decoding to a dict equal to the
original; a `None` reference is stored as the string `"\x7b\x7d"` and reads
back as the empty dict; and a *nonempty* string reference that fails JSON
decoding is returned unchanged as the raw string (the empty string, being
falsy, is instead stored as `"\x7b\x7d"` like `None`). -/
theorem C10_ref_roundtrip (d : List (String × Json)) (s : String)
    (hs : s ≠ "") (hfail : loads s = Option.none) :
    refRead (refEncode (RefArg.dict d)) = RefOut.jval (Json.obj d) ∧
    refEncode RefArg.none = "\x7b\x7d" ∧
    refRead (refEncode RefArg.none) = RefOut.jval (Json.obj []) ∧
    refRead (refEncode (RefArg.str s)) = RefOut.raw s := by
  refine ⟨?_, rfl, rfl, ?_⟩
  · cases d with
    | nil => rfl
    | cons p ps =>
      show refRead (dumps (Json.obj (p :: ps))) = _
      unfold refRead
      rw [loads_dumps]
  · have he : refEncode (RefArg.str s) = s := by simp [refEncode, hs]
    rw [he]
    unfold refRead
    rw [hfail]

/-- Witness for the amended C10 at a one-entry dict and the undecodable
nonempty string "abc". -/
theorem C10_ref_roundtrip_witness :
    refRead (refEncode (RefArg.dict [("a", Json.num 1)])) =
      RefOut.jval (Json.obj [("a", Json.num 1)]) ∧
    refRead (refEncode (RefArg.str "abc")) = RefOut.raw "abc" := by
  have h := C10_ref_roundtrip [("a", Json.num 1)] "abc" (by decide) rfl
  exact ⟨h.1, h.2.2.2⟩

/-- Redis `SADD` on one of the modelled sets. -/
def sadd (l : List (String × List String)) (k x : String) : List (String × List String) :=
  match alookup l k with
  | some s => aset l k (if x ∈ s then s else s ++ [x])
  | Option.none => aset l k [x]

/-- Redis `SREM` on one of the modelled sets. -/
def srem (l : List (String × List String)) (k x : String) : List (String × List String) :=
  match alookup l k with
  | some s => aset l k (s.filter (fun y => decide (y ≠ x)))
  | Option.none => l

/-- The `set_metadata` method: if the `META` record exists and `overwrite`
was not requested, log a warning and return without touching anything;
otherwise (deleting the old record first when overwriting) write the full
metadata record and add the strategy to the `StrategyNames` set.  The
`outsample_sdt` parameter stands for the already-normalized `%Y%m%d` string
and `now` for the current-time string. -/
def setMetadata (st : Store) (kpre strat base_freq description author outsample_sdt
    kwargs now : String) (ow : Bool) : Store :=
  let meta : MetaRec :=
    { name := strat, base_freq := base_freq, keyPre := kpre, description := description,
      author := author, outsample_sdt := outsample_sdt, update_time := now, kwargs := kwargs }
  let write := fun (st1 : Store) =>
    { st1 with
        metas := aset st1.metas (kpre, strat) meta
        names := sadd st1.names kpre strat }
  match alookup st.metas (kpre, strat) with
  | some _ =>
    if ow then write { st with metas := aerase st.metas (kpre, strat) } else st
  | Option.none => write st

theorem alookup_aerase {κ β : Type} [DecidableEq κ] (l : List (κ × β)) (k : κ) :
    alookup (aerase l k) k = Option.none := by
  induction l with
  | nil => rfl
  | cons hd tl ih =>
    obtain ⟨k', v'⟩ := hd
    by_cases hk : k' = k
    · simpa [aerase, hk] using ih
    · simpa [aerase, alookup, hk] using ih

/-- C8: when a strategy's metadata record already exists, `set_metadata`
without overwrite leaves the whole store (in particular the metadata
record) unchanged; with `overwrite=True` it deletes the old record and then
writes the full new record, so the stored metadata afterwards is exactly
the freshly built record. -/
theorem C8_metadata_immutable (st : Store)
    (kpre strat bf desc auth sdt kw now : String) (m : MetaRec)
    (hex : alookup st.metas (kpre, strat) = some m) :
    setMetadata st kpre strat bf desc auth sdt kw now false = st ∧
    alookup (setMetadata st kpre strat bf desc auth sdt kw now true).metas (kpre, strat) =
      some { name := strat, base_freq := bf, keyPre := kpre, description := desc,
             author := auth, outsample_sdt := sdt, update_time := now, kwargs := kw } := by
  constructor
  · simp [setMetadata, hex]
  · simp only [setMetadata, hex]
    exact alookup_aset _ _ _

/-- Witness for C8 at a concrete store holding one metadata record. -/
theorem C8_metadata_immutable_witness :
    setMetadata ⟨[], [], [], [((("W" : String), ("S" : String)),
        ⟨"S", "60m", "W", "d", "a", "20240101", "t0", "k"⟩)], [], [], [], []⟩
      "W" "S" "1d" "d2" "a2" "20250101" "k2" "t1" false =
    ⟨[], [], [], [((("W" : String), ("S" : String)),
        ⟨"S", "60m", "W", "d", "a", "20240101", "t0", "k"⟩)], [], [], [], []⟩ :=
  (C8_metadata_immutable
    ⟨[], [], [], [((("W" : String), ("S" : String)),
        ⟨"S", "60m", "W", "d", "a", "20240101", "t0", "k"⟩)], [], [], [], []⟩
    "W" "S" "1d" "d2" "a2" "20250101" "k2" "t1"
    ⟨"S", "60m", "W", "d", "a", "20240101", "t0", "k"⟩ rfl).1

/-- Colon-joined string (as characters) of a key's segments. -/
def joinKey : List String → List Char
  | [] => []
  | [s] => s.data
  | s :: rest => s.data ++ ':' :: joinKey rest

/-- Redis glob `pat*`: the pattern (with its trailing `*` removed) is a
character prefix of the key. -/
def globPre (pat : List Char) (segs : List String) : Bool :=
  pat.isPrefixOf (joinKey segs)

/-- Segments of an event-record key. -/
def evSegs (k : EvKey) : List String := [k.kpre, k.strat, k.sym, String.mk (pad14 k.t)]

/-- Segments of a LastPointer key. -/
def lastSegs (sk : SKey) : List String := [sk.kpre, sk.strat, sk.sym, "LAST"]

/-- Segments of a SymbolIndex key. -/
def zSegs (sk : SKey) : List String := [sk.kpre, sk.strat, sk.sym]

/-- The `get_last_times(symbol)` point lookup: the LastPointer's event time
(the reader parses the stored `dt` string back to the instant). -/
def getLastTime (st : Store) (kpre strat sym : String) : Option Nat :=
  (alookup st.lasts ⟨kpre, strat, sym⟩).map (fun r => r.dt)

/-- The `clear_all` method: with `with_human` set, ask for confirmation and
do nothing unless the lowered answer is `"y"`; otherwise delete every key
matching the glob `key_prefix:strategy*` (event records, LastPointers,
SymbolIndexes) together with the strategy's `META`, `LAST` and heartbeat
keys, and remove the strategy from the `StrategyNames` set.  (The code's
`len(keys) == 0` early return is unreachable: three keys are always
appended before the check.) -/
def clearAll (st : Store) (kpre strat : String) (with_human : Bool) (answer : String) :
    Store :=
  if with_human ∧ answer.toLower ≠ "y" then st
  else
    let pat := (kpre ++ ":" ++ strat).data
    { st with
        recs := st.recs.filter (fun p => !(globPre pat (evSegs p.1)))
        lasts := st.lasts.filter (fun p => !(globPre pat (lastSegs p.1)))
        zidx := st.zidx.filter (fun p => !(globPre pat (zSegs p.1)))
        metas := aerase st.metas (kpre, strat)
        lastMarkers := aerase st.lastMarkers (kpre, strat)
        heartbeats := aerase st.heartbeats (kpre, strat)
        names := srem st.names kpre strat }

theorem isPrefixOf_append_self {α : Type} [BEq α] [LawfulBEq α] (l r : List α) :
    l.isPrefixOf (l ++ r) = true := by
  induction l with
  | nil => simp [List.isPrefixOf]
  | cons c cs ih => simp [List.isPrefixOf, ih]

theorem alookup_filter_none {κ β : Type} [DecidableEq κ] (l : List (κ × β))
    (p : κ × β → Bool) (k : κ) (h : ∀ v, p (k, v) = false) :
    alookup (l.filter p) k = Option.none := by
  induction l with
  | nil => rfl
  | cons hd tl ih =>
    obtain ⟨k', v'⟩ := hd
    rw [List.filter_cons]
    by_cases hk : k' = k
    · subst hk
      rw [h v']
      simpa using ih
    · cases hp : p (k', v')
      · simpa using ih
      · simpa [alookup, hk] using ih

theorem pat_data (kpre strat : String) :
    (kpre ++ ":" ++ strat).data = kpre.data ++ ':' :: strat.data := by
  simp [String.data_append]

theorem globPre_own (kpre strat : String) (s3 : String) (rest : List String) :
    globPre (kpre.data ++ ':' :: strat.data) (kpre :: strat :: s3 :: rest) = true := by
  rw [globPre]
  have hjoin : joinKey (kpre :: strat :: s3 :: rest) =
      (kpre.data ++ ':' :: strat.data) ++ ':' :: joinKey (s3 :: rest) := by
    cases rest <;> simp [joinKey]
  rw [hjoin]
  exact isPrefixOf_append_self _ _

/-- C9: a confirmed wipe (bypassed, or answered `"y"`) removes every one of
the strategy's event records, LastPointers and SymbolIndexes, its metadata
record, its strategy-wide last-update marker, its heartbeat key, and its
entry in the `StrategyNames` directory, so a subsequent `last(symbol)`
lookup returns absent for every symbol; while with `with_human` set and any
answer other than `"y"` nothing at all is changed. -/
theorem C9_clear_all (st : Store) (kpre strat : String) (wh : Bool) (ans : String) :
    ((wh = false ∨ ans.toLower = "y") →
      (∀ sym t, alookup (clearAll st kpre strat wh ans).recs ⟨kpre, strat, sym, t⟩ =
        Option.none) ∧
      (∀ sym, alookup (clearAll st kpre strat wh ans).lasts ⟨kpre, strat, sym⟩ =
        Option.none) ∧
      (∀ sym, alookup (clearAll st kpre strat wh ans).zidx ⟨kpre, strat, sym⟩ =
        Option.none) ∧
      alookup (clearAll st kpre strat wh ans).metas (kpre, strat) = Option.none ∧
      alookup (clearAll st kpre strat wh ans).lastMarkers (kpre, strat) = Option.none ∧
      alookup (clearAll st kpre strat wh ans).heartbeats (kpre, strat) = Option.none ∧
      (∀ members, alookup (clearAll st kpre strat wh ans).names kpre = some members →
        strat ∉ members) ∧
      (∀ sym, getLastTime (clearAll st kpre strat wh ans) kpre strat sym = Option.none)) ∧
    (wh = true → ans.toLower ≠ "y" → clearAll st kpre strat wh ans = st) := by
  constructor
  · intro hok
    have hcond : ¬ (wh = true ∧ ans.toLower ≠ "y") := by
      rcases hok with h | h
      · intro hc; rw [h] at hc; exact Bool.false_ne_true hc.1
      · intro hc; exact hc.2 h
    have hdo : clearAll st kpre strat wh ans =
        { st with
            recs := st.recs.filter
              (fun p => !(globPre (kpre ++ ":" ++ strat).data (evSegs p.1)))
            lasts := st.lasts.filter
              (fun p => !(globPre (kpre ++ ":" ++ strat).data (lastSegs p.1)))
            zidx := st.zidx.filter
              (fun p => !(globPre (kpre ++ ":" ++ strat).data (zSegs p.1)))
            metas := aerase st.metas (kpre, strat)
            lastMarkers := aerase st.lastMarkers (kpre, strat)
            heartbeats := aerase st.heartbeats (kpre, strat)
            names := srem st.names kpre strat } := by
      rw [clearAll, if_neg hcond]
    have hrecs : ∀ sym t,
        alookup (clearAll st kpre strat wh ans).recs ⟨kpre, strat, sym, t⟩ = Option.none := by
      intro sym t
      rw [hdo]
      exact alookup_filter_none _ _ _ (fun v => by
        simp [evSegs, globPre_own])
    have hlasts : ∀ sym,
        alookup (clearAll st kpre strat wh ans).lasts ⟨kpre, strat, sym⟩ = Option.none := by
      intro sym
      rw [hdo]
      exact alookup_filter_none _ _ _ (fun v => by
        simp [lastSegs, globPre_own])
    refine ⟨hrecs, hlasts, ?_, ?_, ?_, ?_, ?_, ?_⟩
    · intro sym
      rw [hdo]
      exact alookup_filter_none _ _ _ (fun v => by
        simp [zSegs, globPre_own])
    · rw [hdo]; exact alookup_aerase _ _
    · rw [hdo]; exact alookup_aerase _ _
    · rw [hdo]; exact alookup_aerase _ _
    · intro members hm
      rw [hdo] at hm
      simp only [srem] at hm
      cases hnames : alookup st.names kpre with
      | none => simp [hnames] at hm
      | some s =>
        simp only [hnames] at hm
        rw [alookup_aset] at hm
        have hmem : members = s.filter (fun y => decide (y ≠ strat)) :=
          (Option.some.inj hm).symm
        subst hmem
        intro hin
        have hfact := (List.mem_filter.mp hin).2
        simp at hfact
    · intro sym
      rw [getLastTime, hlasts sym]
      rfl
  · intro hwh hans
    rw [clearAll, if_pos ⟨hwh, hans⟩]

/-- Witness for C9: bypassing confirmation wipes a one-strategy store and a
subsequent LastPointer lookup is absent. -/
theorem C9_clear_all_witness :
    alookup (clearAll ⟨[(⟨"W", "S", "A", 5⟩, mkRec ⟨"W", "S", "A", 5⟩ ⟨1, 0, "r"⟩ "u")],
        [(⟨"W", "S", "A"⟩, mkRec ⟨"W", "S", "A", 5⟩ ⟨1, 0, "r"⟩ "u")],
        [], [], [], [], [("W", ["S"])], []⟩ "W" "S" false "").lasts ⟨"W", "S", "A"⟩ =
      Option.none ∧
    (∀ members, alookup (clearAll ⟨[(⟨"W", "S", "A", 5⟩, mkRec ⟨"W", "S", "A", 5⟩ ⟨1, 0, "r"⟩ "u")],
        [(⟨"W", "S", "A"⟩, mkRec ⟨"W", "S", "A", 5⟩ ⟨1, 0, "r"⟩ "u")],
        [], [], [], [], [("W", ["S"])], []⟩ "W" "S" false "").names "W" = some members →
      "S" ∉ members) := by
  have h := (C9_clear_all ⟨[(⟨"W", "S", "A", 5⟩, mkRec ⟨"W", "S", "A", 5⟩ ⟨1, 0, "r"⟩ "u")],
    [(⟨"W", "S", "A"⟩, mkRec ⟨"W", "S", "A", 5⟩ ⟨1, 0, "r"⟩ "u")],
    [], [], [], [], [("W", ["S"])], []⟩ "W" "S" false "").1 (Or.inl rfl)
  exact ⟨h.2.1 "A", h.2.2.2.2.2.2.1⟩

/-! ### Batch publishing (`publish_dataframe`)

The DataFrame is modelled as a list of events.  Pandas `sort_values` is
modelled by a stable insertion sort; `groupby("symbol")` iterates groups in
ascending symbol order (Python string order, i.e. lexicographic on code
points), each group listing its rows in the enclosing frame's order — since
every per-symbol group is sorted by `dt` first, filtering the whole frame
by a symbol yields exactly that group's rows. -/

/-- One row of the published DataFrame.  A `dict` in the `ref` column
reaches the store as its JSON dump, so `ref` here holds the already-encoded
string (`"\x7b\x7d"` when the column is absent). -/
structure Ev where
  symbol : String
  dt : Nat
  weight : Rat
  price : Rat
  ref : String
deriving DecidableEq

/-- Event-time order on rows. -/
def dtLe (a b : Ev) : Prop := a.dt ≤ b.dt

instance : DecidableRel dtLe := fun a b => Nat.decLe a.dt b.dt

instance : IsTotal Ev dtLe := ⟨fun a b => Nat.le_total a.dt b.dt⟩

instance : IsTrans Ev dtLe := ⟨fun _ _ _ => Nat.le_trans⟩

/-- Lexicographic comparison of strings by code point (Python string `<=`,
the order `groupby` sorts symbol groups by). -/
def symLeB : List Char → List Char → Bool
  | [], _ => true
  | _ :: _, [] => false
  | a :: as, b :: bs =>
    if a.toNat < b.toNat then true
    else if b.toNat < a.toNat then false
    else symLeB as bs

/-- String order used for symbol groups. -/
def symLe (a b : String) : Prop := symLeB a.data b.data = true

instance : DecidableRel symLe := fun _ _ => instDecidableEqBool _ _

theorem symLeB_total (x : List Char) : ∀ y, symLeB x y = true ∨ symLeB y x = true := by
  induction x with
  | nil => intro y; left; rfl
  | cons a as ih =>
    intro y
    cases y with
    | nil => right; rfl
    | cons b bs =>
      by_cases h1 : a.toNat < b.toNat
      · left; simp [symLeB, h1]
      · by_cases h2 : b.toNat < a.toNat
        · right; simp [symLeB, h2]
        · rcases ih bs with h | h
          · left; simp [symLeB, h1, h2, h]
          · right; simp [symLeB, h1, h2, h]

theorem symLeB_trans (x : List Char) :
    ∀ y z, symLeB x y = true → symLeB y z = true → symLeB x z = true := by
  induction x with
  | nil => intro y z _ _; rfl
  | cons a as ih =>
    intro y z hxy hyz
    cases y with
    | nil => simp [symLeB] at hxy
    | cons b bs =>
      cases z with
      | nil => simp [symLeB] at hyz
      | cons c cs =>
        simp only [symLeB] at hxy hyz ⊢
        by_cases hab : a.toNat < b.toNat
        · by_cases hbc : b.toNat < c.toNat
          · simp [show a.toNat < c.toNat by omega]
          · by_cases hcb : c.toNat < b.toNat
            · simp [hbc, hcb] at hyz
            · have hbc2 : b.toNat = c.toNat := by omega
              simp [show a.toNat < c.toNat by omega]
        · by_cases hba : b.toNat < a.toNat
          · simp [hab, hba] at hxy
          · have hba2 : a.toNat = b.toNat := by omega
            by_cases hbc : b.toNat < c.toNat
            · simp [show a.toNat < c.toNat by omega]
            · by_cases hcb : c.toNat < b.toNat
              · simp [hbc, hcb] at hyz
              · have hcb2 : b.toNat = c.toNat := by omega
                simp only [if_neg hab, if_neg hba] at hxy
                simp only [if_neg hbc, if_neg hcb] at hyz
                simp only [show ¬ a.toNat < c.toNat by omega,
                  show ¬ c.toNat < a.toNat by omega, if_false]
                exact ih bs cs hxy hyz

instance : IsTotal String symLe := ⟨fun a b => symLeB_total a.data b.data⟩

instance : IsTrans String symLe :=
  ⟨fun a b c hab hbc => symLeB_trans a.data b.data c.data hab hbc⟩

/-- The distinct symbols of the input, in ascending order — the order
`groupby("symbol")` produces its groups in. -/
def symbolsOf (evs : List Ev) : List String :=
  List.insertionSort symLe ((evs.map (fun e => e.symbol)).dedup)

/-- The pandas pre-filter `dfg[dfg["weight"].diff().fillna(1) != 0]`: walk a
symbol's rows in time order, dropping every row whose weight equals the
immediately preceding row's weight (the comparison is with the original
predecessor, exactly as `diff` computes it); the first row is always kept. -/
def keepChangedGo (prev : Rat) : List Ev → List Ev
  | [] => []
  | e :: rest =>
    if e.weight = prev then keepChangedGo e.weight rest
    else e :: keepChangedGo e.weight rest

/-- Client-side pre-filter 1 applied to one symbol's time-sorted rows. -/
def keepChanged : List Ev → List Ev
  | [] => []
  | e :: rest => e :: keepChangedGo e.weight rest

/-- Rows of the events of one symbol, in the enclosing frame's order. -/
def eventsOf (s : String) (evs : List Ev) : List Ev :=
  evs.filter (fun e => decide (e.symbol = s))

/-- Lines 186–193 of `publish_dataframe`: per symbol, sort by `dt` and drop
consecutive equal weights; concatenate the groups; then sort the whole
frame globally by `dt`. -/
def stage1 (evs : List Ev) : List Ev :=
  List.insertionSort dtLe
    (((symbolsOf evs).map
      (fun s => keepChanged (List.insertionSort dtLe (eventsOf s evs)))).flatten)

/-- Lines 201–211 of `publish_dataframe` (only when `overwrite=False`):
fetch each symbol's LastPointer time once, drop every row not strictly
later, and concatenate the per-symbol groups (in ascending symbol order —
the groupby/concat does NOT restore the global time order). -/
def stage2 (st : Store) (kpre strat : String) (ow : Bool) (evs : List Ev) : List Ev :=
  if ow then evs
  else
    ((symbolsOf evs).map
      (fun s =>
        match getLastTime st kpre strat s with
        | some t => (eventsOf s evs).filter (fun e => decide (t < e.dt))
        | Option.none => eventsOf s evs)).flatten

/-- The rows submitted to the Lua transaction, in submission order. -/
def submitList (st : Store) (kpre strat : String) (ow : Bool) (evs : List Ev) : List Ev :=
  stage2 st kpre strat ow (stage1 evs)

/-- Key/ARGV pair built for one row. -/
def toItem (kpre strat : String) (e : Ev) : EvKey × PubArgs :=
  (⟨kpre, strat, e.symbol, e.dt⟩, ⟨e.weight, e.price, e.ref⟩)

/-- Split a list into chunks of `bs` (`range(0, len, batch_size)`; fuel is
the list length, sufficient whenever `bs > 0`). -/
def chunksF {α : Type} : Nat → Nat → List α → List (List α)
  | _, _, [] => []
  | 0, _, _ :: _ => []
  | fu + 1, bs, l => l.take bs :: chunksF fu bs (l.drop bs)

/-- Chunks of size at most `bs` (callers always pass `bs > 0`). -/
def chunksList {α : Type} (bs : Nat) (l : List α) : List (List α) :=
  if bs = 0 then [] else chunksF l.length bs l

/-- The `publish_dataframe` method: stage-1 dedup, stage-2 stale filter,
then submit the surviving rows to the Lua transaction in chunks of at most
`bs`, threading the store and summing the accepted counts, and finally
refresh the strategy-wide `LAST` marker (`update_last`). -/
def publishDataframe (st : Store) (kpre strat : String) (evs : List Ev) (ow : Bool)
    (bs : Nat) (udt : String) : Store × Nat :=
  let sub := submitList st kpre strat ow evs
  let res := (chunksList bs sub).foldl
    (fun (acc : Store × Nat) (c : List Ev) =>
      let r := luaPublish ow udt acc.1 (c.map (toItem kpre strat))
      (r.1, acc.2 + r.2))
    (st, 0)
  ({ res.1 with lastMarkers := aset res.1.lastMarkers (kpre, strat) udt }, res.2)

theorem keepChangedGo_subset :
    ∀ (l : List Ev) (prev : Rat) (e : Ev), e ∈ keepChangedGo prev l → e ∈ l := by
  intro l
  induction l with
  | nil => intro prev e h; simp [keepChangedGo] at h
  | cons x xs ih =>
    intro prev e h
    simp only [keepChangedGo] at h
    by_cases hw : x.weight = prev
    · rw [if_pos hw] at h
      exact List.mem_cons_of_mem x (ih _ e h)
    · rw [if_neg hw] at h
      rcases List.mem_cons.mp h with h | h
      · exact h ▸ List.mem_cons_self x xs
      · exact List.mem_cons_of_mem x (ih _ e h)

theorem keepChanged_subset (l : List Ev) (e : Ev) (h : e ∈ keepChanged l) : e ∈ l := by
  cases l with
  | nil => simp [keepChanged] at h
  | cons x xs =>
    rcases List.mem_cons.mp h with h | h
    · exact h ▸ List.mem_cons_self x xs
    · exact List.mem_cons_of_mem x (keepChangedGo_subset xs _ e h)

theorem mem_group_symbol (evs : List Ev) (s : String) (e : Ev)
    (h : e ∈ keepChanged (List.insertionSort dtLe (eventsOf s evs))) : e.symbol = s := by
  have h1 := keepChanged_subset _ _ h
  have h2 := (List.mem_insertionSort dtLe).mp h1
  have h3 := List.mem_filter.mp h2
  simpa using h3.2

theorem filter_flatten_groups (syms : List String) (hnd : syms.Nodup)
    (f : String → List Ev) (hf : ∀ s' e, e ∈ f s' → e.symbol = s') (s : String) :
    ((syms.map f).flatten.filter (fun e => decide (e.symbol = s))) =
      if s ∈ syms then f s else [] := by
  induction syms with
  | nil => rfl
  | cons s' ss ih =>
    have hnd2 : ss.Nodup := hnd.of_cons
    simp only [List.map_cons, List.flatten_cons, List.filter_append]
    by_cases hss : s' = s
    · subst hss
      have hself : (f s').filter (fun e => decide (e.symbol = s')) = f s' :=
        List.filter_eq_self.mpr (fun e he => by simpa using hf s' e he)
      have hnotin : s' ∉ ss := (List.nodup_cons.mp hnd).1
      rw [hself, ih hnd2, if_neg hnotin, if_pos (List.mem_cons_self s' ss), List.append_nil]
    · have hnil : (f s').filter (fun e => decide (e.symbol = s)) = [] :=
        List.filter_eq_nil_iff.mpr (fun e he => by
          simp only [decide_eq_true_eq]
          rw [hf s' e he]
          exact fun hc => hss hc)
      rw [hnil, ih hnd2, List.nil_append]
      by_cases hmem : s ∈ ss
      · rw [if_pos hmem, if_pos (List.mem_cons_of_mem s' hmem)]
      · rw [if_neg hmem, if_neg (by
          intro hc
          rcases List.mem_cons.mp hc with hc | hc
          · exact hss hc.symm
          · exact hmem hc)]

theorem mem_symbolsOf {evs : List Ev} {s : String} :
    s ∈ symbolsOf evs ↔ ∃ e ∈ evs, e.symbol = s := by
  simp [symbolsOf, List.mem_insertionSort, List.mem_dedup]

theorem symbolsOf_nodup (evs : List Ev) : (symbolsOf evs).Nodup :=
  ((List.perm_insertionSort symLe _).nodup_iff).mpr (List.nodup_dedup _)

theorem stage1_filter_group (evs : List Ev) (s : String) :
    ((stage1 evs).filter (fun e => decide (e.symbol = s))).Perm
      (keepChanged (List.insertionSort dtLe (eventsOf s evs))) := by
  have hperm : (stage1 evs).Perm (((symbolsOf evs).map
      (fun s' => keepChanged (List.insertionSort dtLe (eventsOf s' evs)))).flatten) :=
    List.perm_insertionSort dtLe _
  have hfilter := hperm.filter (fun e => decide (e.symbol = s))
  rw [filter_flatten_groups (symbolsOf evs) (symbolsOf_nodup evs) _
    (fun s' e he => mem_group_symbol evs s' e he) s] at hfilter
  by_cases hs : s ∈ symbolsOf evs
  · rw [if_pos hs] at hfilter
    exact hfilter
  · rw [if_neg hs] at hfilter
    have hempty : eventsOf s evs = [] :=
      List.filter_eq_nil_iff.mpr (fun e he hdec => by
        exact hs (mem_symbolsOf.mpr ⟨e, he, by simpa using hdec⟩))
    rw [hempty]
    exact hfilter

theorem keepChangedGo_eq_zip :
    ∀ (l : List Ev) (p : Ev),
      keepChangedGo p.weight l =
        ((p :: l).zip l).filterMap
          (fun pe => if pe.2.weight = pe.1.weight then Option.none else some pe.2) := by
  intro l
  induction l with
  | nil => intro p; rfl
  | cons x xs ih =>
    intro p
    have hz : ((p :: x :: xs).zip (x :: xs)) = (p, x) :: ((x :: xs).zip xs) := rfl
    rw [hz, List.filterMap_cons]
    by_cases hw : x.weight = p.weight
    · simp only [keepChangedGo, if_pos hw]
      exact ih x
    · simp only [keepChangedGo, if_neg hw]
      rw [ih x]

/-- C3: in `publish_batch` (i) for every symbol, the rows surviving the
client-side dedup stage are exactly — as a multiset — the symbol's
time-sorted rows with every row whose weight equals its immediate
predecessor's weight dropped; (ii) the dropped-row rule is precisely
"weight exactly equal to the immediately preceding row" (predecessor-pair
characterization of `keepChanged`); (iii) the first row of each symbol is
always retained; and (iv) everything submitted to the store is drawn from
the stage-1 survivors, so dropped rows never reach the store and the
accepted count can only count survivors. -/
theorem C3_batch_dedup (evs : List Ev) (s : String) :
    ((stage1 evs).filter (fun e => decide (e.symbol = s))).Perm
      (keepChanged (List.insertionSort dtLe (eventsOf s evs))) ∧
    (∀ (e : Ev) (l : List Ev),
      keepChanged (e :: l) =
        e :: ((e :: l).zip l).filterMap
          (fun pe => if pe.2.weight = pe.1.weight then Option.none else some pe.2)) ∧
    (∀ l : List Ev, (keepChanged l).head? = l.head?) ∧
    (∀ (st : Store) (kpre strat : String) (ow : Bool) (e : Ev),
      e ∈ submitList st kpre strat ow evs → e ∈ stage1 evs) := by
  refine ⟨stage1_filter_group evs s, ?_, ?_, ?_⟩
  · intro e l
    simp only [keepChanged]
    rw [keepChangedGo_eq_zip l e]
  · intro l
    cases l <;> rfl
  · intro st kpre strat ow e h
    unfold submitList stage2 at h
    cases ow with
    | true => simpa using h
    | false =>
      simp only [Bool.false_eq_true, if_false] at h
      rcases List.mem_flatten.mp h with ⟨gl, hgl, hegl⟩
      rcases List.mem_map.mp hgl with ⟨s', hs', rfl⟩
      cases hlt : getLastTime st kpre strat s' with
      | none =>
        rw [hlt] at hegl
        exact (List.mem_filter.mp hegl).1
      | some t =>
        rw [hlt] at hegl
        exact (List.mem_filter.mp (List.mem_filter.mp hegl).1).1

/-- C4 counterexample: with `overwrite=False` the surviving rows are NOT
submitted in global event-time order.  With rows `A@t=2` and `B@t=1` and an
empty store (no LastPointers, so nothing is dropped), the groupby/concat of
the stale filter reorders the frame symbol-major, submitting `A@2` before
`B@1` — the submission list is not sorted by event time, contradicting the
claim's ordering sentence. -/
theorem C4_counterexample :
    ¬ (submitList Store.empty "W" "S" false
        [⟨"A", 2, 1, 0, "r"⟩, ⟨"B", 1, 2, 0, "r"⟩]).Pairwise dtLe := by
  intro h
  have hcomp : submitList Store.empty "W" "S" false
      [⟨"A", 2, 1, 0, "r"⟩, ⟨"B", 1, 2, 0, "r"⟩] =
      [⟨"A", 2, 1, 0, "r"⟩, ⟨"B", 1, 2, 0, "r"⟩] := rfl
  rw [hcomp] at h
  have hle := (List.pairwise_cons.mp h).1 _ (List.mem_cons_self _ _)
  exact absurd hle (by decide)

theorem luaPublish_append (ow : Bool) (udt : String) :
    ∀ (l1 l2 : List (EvKey × PubArgs)) (st : Store),
      luaPublish ow udt st (l1 ++ l2) =
        ((luaPublish ow udt (luaPublish ow udt st l1).1 l2).1,
         (luaPublish ow udt st l1).2 + (luaPublish ow udt (luaPublish ow udt st l1).1 l2).2) := by
  intro l1
  induction l1 with
  | nil => intro l2 st; simp [luaPublish]
  | cons hd tl ih =>
    intro l2 st
    obtain ⟨k, a⟩ := hd
    simp only [List.cons_append, luaPublish, List.append_eq]
    rw [ih l2 (luaStep ow udt st k a).1]
    simp [Nat.add_assoc]

theorem chunksF_flatten {α : Type} :
    ∀ (fu bs : Nat) (l : List α), 0 < bs → l.length ≤ fu →
      (chunksF fu bs l).flatten = l := by
  intro fu
  induction fu with
  | zero =>
    intro bs l hbs hlen
    cases l with
    | nil => rfl
    | cons x xs => simp at hlen
  | succ fu ih =>
    intro bs l hbs hlen
    cases l with
    | nil => rfl
    | cons x xs =>
      simp only [chunksF, List.flatten_cons]
      rw [ih bs _ hbs (by simp only [List.length_drop, List.length_cons] at hlen ⊢; omega)]
      exact List.take_append_drop bs (x :: xs)

theorem chunksF_size {α : Type} :
    ∀ (fu bs : Nat) (l : List α), ∀ c ∈ chunksF fu bs l, c.length ≤ bs := by
  intro fu
  induction fu with
  | zero =>
    intro bs l c hc
    cases l with
    | nil => simp [chunksF] at hc
    | cons x xs => simp [chunksF] at hc
  | succ fu ih =>
    intro bs l c hc
    cases l with
    | nil => simp [chunksF] at hc
    | cons x xs =>
      simp only [chunksF] at hc
      rcases List.mem_cons.mp hc with hc | hc
      · subst hc
        simp only [List.length_take]
        omega
      · exact ih bs _ c hc

theorem chunks_fold_count (ow : Bool) (udt kpre strat : String) :
    ∀ (cs : List (List Ev)) (st : Store) (acc : Nat),
      (cs.foldl (fun (a : Store × Nat) (c : List Ev) =>
          ((luaPublish ow udt a.1 (c.map (toItem kpre strat))).1,
           a.2 + (luaPublish ow udt a.1 (c.map (toItem kpre strat))).2)) (st, acc)).2 =
        acc + (luaPublish ow udt st (cs.flatten.map (toItem kpre strat))).2 := by
  intro cs
  induction cs with
  | nil => intro st acc; simp [luaPublish]
  | cons c cs ih =>
    intro st acc
    simp only [List.foldl_cons, List.flatten_cons, List.map_append]
    rw [ih, luaPublish_append]
    omega

/-- C4 (amended): in `publish_batch` with `overwrite=False` — (i) a stage-1
row survives the stale filter iff its event time is strictly later than its
symbol's LastPointer time, fetched once before submission; (ii) the
surviving rows are submitted grouped by symbol, the symbols in ascending
order and each symbol's rows in ascending event time (not globally ordered
by event time: the groupby/concat makes the order symbol-major); (iii) the
rows are cut into chunks of at most `batch_size`, whose concatenation is the
whole submission list; and (iv) the returned accepted count — the sum of
the per-chunk transaction results with the store threaded through — equals
the accepted count of one pass of the Lua transaction over the entire
submission list, each row paired with its own weight, price and reference
via `toItem`. -/
theorem C4_batch_submit (st : Store) (kpre strat udt : String) (evs : List Ev)
    (bs : Nat) (hbs : 0 < bs) :
    (∀ e : Ev, e ∈ submitList st kpre strat false evs ↔
      e ∈ stage1 evs ∧
        (∀ t, getLastTime st kpre strat e.symbol = some t → t < e.dt)) ∧
    (submitList st kpre strat false evs =
      ((symbolsOf (stage1 evs)).map (fun s =>
        match getLastTime st kpre strat s with
        | some t => (eventsOf s (stage1 evs)).filter (fun e => decide (t < e.dt))
        | Option.none => eventsOf s (stage1 evs))).flatten) ∧
    (symbolsOf (stage1 evs)).Pairwise symLe ∧
    (chunksList bs (submitList st kpre strat false evs)).flatten =
      submitList st kpre strat false evs ∧
    (∀ c ∈ chunksList bs (submitList st kpre strat false evs), c.length ≤ bs) ∧
    (publishDataframe st kpre strat evs false bs udt).2 =
      (luaPublish false udt st
        ((submitList st kpre strat false evs).map (toItem kpre strat))).2 := by
  have hflat : (chunksList bs (submitList st kpre strat false evs)).flatten =
      submitList st kpre strat false evs := by
    rw [chunksList, if_neg (by omega)]
    exact chunksF_flatten _ bs _ hbs (Nat.le_refl _)
  refine ⟨?_, ?_, ?_, hflat, ?_, ?_⟩
  · intro e
    constructor
    · intro h
      unfold submitList stage2 at h
      simp only [Bool.false_eq_true, if_false] at h
      rcases List.mem_flatten.mp h with ⟨gl, hgl, hegl⟩
      rcases List.mem_map.mp hgl with ⟨s', hs', rfl⟩
      cases hlt : getLastTime st kpre strat s' with
      | none =>
        rw [hlt] at hegl
        have hsym : e.symbol = s' := by simpa using (List.mem_filter.mp hegl).2
        refine ⟨(List.mem_filter.mp hegl).1, ?_⟩
        intro t ht
        rw [hsym, hlt] at ht
        exact absurd ht (by simp)
      | some t =>
        rw [hlt] at hegl
        have hin := List.mem_filter.mp hegl
        have hsym : e.symbol = s' := by simpa using (List.mem_filter.mp hin.1).2
        refine ⟨(List.mem_filter.mp hin.1).1, ?_⟩
        intro t2 ht2
        rw [hsym, hlt] at ht2
        obtain rfl := Option.some.inj ht2
        simpa using hin.2
    · intro ⟨hmem, hcond⟩
      unfold submitList stage2
      simp only [Bool.false_eq_true, if_false]
      refine List.mem_flatten.mpr ⟨_, List.mem_map.mpr ⟨e.symbol,
        mem_symbolsOf.mpr ⟨e, hmem, rfl⟩, rfl⟩, ?_⟩
      cases hlt : getLastTime st kpre strat e.symbol with
      | none =>
        exact List.mem_filter.mpr ⟨hmem, by simp⟩
      | some t =>
        refine List.mem_filter.mpr ⟨List.mem_filter.mpr ⟨hmem, by simp⟩, ?_⟩
        simpa using hcond t hlt
  · rfl
  · exact List.sorted_insertionSort symLe _
  · exact fun c hc => chunksF_size _ bs _ c (by
      rw [chunksList, if_neg (by omega)] at hc
      exact hc)
  · show ((chunksList bs (submitList st kpre strat false evs)).foldl _ (st, 0)).2 = _
    rw [chunks_fold_count false udt kpre strat _ st 0, hflat]
    omega

/-- Witness for the amended C4 at the counterexample input (two symbols,
interleaved times, empty store, batch size 1). -/
theorem C4_batch_submit_witness :
    ((⟨"A", 2, 1, 0, "r"⟩ : Ev) ∈
      submitList Store.empty "W" "S" false [⟨"A", 2, 1, 0, "r"⟩, ⟨"B", 1, 2, 0, "r"⟩] ↔
      (⟨"A", 2, 1, 0, "r"⟩ : Ev) ∈ stage1 [⟨"A", 2, 1, 0, "r"⟩, ⟨"B", 1, 2, 0, "r"⟩] ∧
        (∀ t, getLastTime Store.empty "W" "S" "A" = some t → t < 2)) ∧
    (publishDataframe Store.empty "W" "S" [⟨"A", 2, 1, 0, "r"⟩, ⟨"B", 1, 2, 0, "r"⟩]
        false 1 "u").2 =
      (luaPublish false "u" Store.empty
        ((submitList Store.empty "W" "S" false
          [⟨"A", 2, 1, 0, "r"⟩, ⟨"B", 1, 2, 0, "r"⟩]).map (toItem "W" "S"))).2 := by
  have h := C4_batch_submit Store.empty "W" "S" "u"
    [⟨"A", 2, 1, 0, "r"⟩, ⟨"B", 1, 2, 0, "r"⟩] 1 (by decide)
  exact ⟨h.1 ⟨"A", 2, 1, 0, "r"⟩, h.2.2.2.2.2⟩

/-! ### Dense-matrix reconstruction (`get_all_weights`)

The Lua helper scans keys matching `prefix:strategy:*:*` — in our model the
event-record and LastPointer tables (SymbolIndex keys have only three
segments and META/LAST/heartbeat keys do not carry the strategy in their
second segment, so the glob does not reach them) — and keeps only hashes
whose key's last segment is a 14-character number, i.e. exactly the event
records.  `pivot_table` then arranges the selected records into one column
per symbol indexed by the distinct event times; `ffill` carries the last
known weight down each column and `fillna(0)` zero-fills the leading gap.
(`pivot_table`'s mean aggregation never fires: record keys make `(dt,
symbol)` unique.) -/

/-- The Lua scan's suffix test: `#last_part == 14 and tonumber(last_part)
~= nil` (for the digit strings the client generates, numeric-ness is
exactly all-digits). -/
def is14num (s : String) : Bool := s.length = 14 && s.data.all (fun c => c.isDigit)

/-- The hashes matching the glob `prefix:strategy:*:*`, each paired with
its key's last segment. -/
def allWeightCandidates (st : Store) (kpre strat : String) : List (String × WeightRec) :=
  (st.recs.filter (fun p => decide (p.1.kpre = kpre ∧ p.1.strat = strat))).map
    (fun p => (String.mk (pad14 p.1.t), p.2))
  ++ (st.lasts.filter (fun p => decide (p.1.kpre = kpre ∧ p.1.strat = strat))).map
    (fun p => ("LAST", p.2))

/-- The records `get_all_weights` actually selects. -/
def selectedRecs (st : Store) (kpre strat : String) : List WeightRec :=
  ((allWeightCandidates st kpre strat).filter (fun p => is14num p.1)).map (fun p => p.2)

/-- The pivot index: distinct event times, ascending. -/
def rowTimes (sel : List WeightRec) : List Nat :=
  List.insertionSort (fun a b : Nat => a ≤ b) ((sel.map (fun r => r.dt)).dedup)

/-- One raw pivot cell: the weight of the record at `(t, s)`, if any. -/
def cellRaw (sel : List WeightRec) (t : Nat) (s : String) : Option Rat :=
  (sel.find? (fun r => decide (r.dt = t ∧ r.symbol = s))).map (fun r => r.weight)

/-- Pandas `ffill` down one column. -/
def ffillCol : Option Rat → List (Option Rat) → List (Option Rat)
  | _, [] => []
  | prev, v :: rest =>
    match v with
    | some w => some w :: ffillCol (some w) rest
    | Option.none => prev :: ffillCol prev rest

/-- One dense column after `ffill().fillna(0)`. -/
def colVals (sel : List WeightRec) (s : String) : List Rat :=
  (ffillCol Option.none ((rowTimes sel).map (fun t => cellRaw sel t s))).map
    (fun o => o.getD 0)

/-- The dense matrix entry at row time `t` and symbol `s`. -/
def matrixAt (sel : List WeightRec) (s : String) (t : Nat) : Rat :=
  (((rowTimes sel).zip (colVals sel s)).lookup t).getD 0

/-- The `get_all_weights` method assembled from the pieces above: select
the event records, then emit the melted long-format rows `(dt, symbol,
weight)` of the pivoted/forward-filled/zero-filled table.  (The
`update_time` left-join and the optional `[sdt, edt]` clipping of the
source are outside the claims and omitted.) -/
def getAllWeights (st : Store) (kpre strat : String) : List (Nat × String × Rat) :=
  let sel := selectedRecs st kpre strat
  let syms := List.insertionSort symLe ((sel.map (fun r => r.symbol)).dedup)
  ((rowTimes sel).map (fun t => syms.map (fun s => (t, s, matrixAt sel s t)))).flatten

theorem natDigsF_length :
    ∀ (fu n k : Nat), n < fu → 1 ≤ k → n < 10 ^ k → (natDigsF fu n).length ≤ k := by
  intro fu
  induction fu with
  | zero => intro n k h; omega
  | succ fu ih =>
    intro n k h hk hpow
    by_cases h10 : n < 10
    · simp [natDigsF, h10]
      omega
    · have hk2 : 2 ≤ k := by
        by_contra hc
        have hk1 : k = 1 := by omega
        rw [hk1] at hpow
        simp at hpow
        omega
      have hdiv : n / 10 < fu := by
        have := Nat.div_lt_self (show 0 < n by omega) (show 1 < 10 by omega)
        omega
      have hpow2 : n / 10 < 10 ^ (k - 1) := by
        have hsplit : 10 ^ (k - 1) * 10 = 10 ^ k := by
          have hkk : k - 1 + 1 = k := by omega
          rw [← hkk, pow_succ]
          simp
        rw [Nat.div_lt_iff_lt_mul (by omega)]
        omega
      have := ih (n / 10) (k - 1) hdiv (by omega) hpow2
      simp only [natDigsF, if_neg h10, List.length_append, List.length_cons,
        List.length_nil]
      omega

theorem pad14_length {t : Nat} (h : t < 10 ^ 14) : (pad14 t).length = 14 := by
  have hle : (natDigs t).length ≤ 14 :=
    natDigsF_length (t + 1) t 14 (Nat.lt_succ_self t) (by omega) h
  simp only [pad14, List.length_append, List.length_replicate]
  omega

theorem pad14_digits (t : Nat) : ∀ c ∈ pad14 t, c.isDigit = true := by
  intro c hc
  rcases List.mem_append.mp hc with hc | hc
  · rw [List.eq_of_mem_replicate hc]
    rfl
  · exact natDigs_digits t c hc

theorem is14num_pad14 {t : Nat} (h : t < 10 ^ 14) :
    is14num (String.mk (pad14 t)) = true := by
  have hlen : (String.mk (pad14 t)).length = (pad14 t).length := rfl
  simp [is14num, hlen, pad14_length h, List.all_eq_true]
  exact pad14_digits t

theorem selectedRecs_eq (st : Store) (kpre strat : String)
    (hB : ∀ p ∈ st.recs, p.1.t < 10 ^ 14) :
    selectedRecs st kpre strat =
      (st.recs.filter (fun p => decide (p.1.kpre = kpre ∧ p.1.strat = strat))).map
        (fun p => p.2) := by
  unfold selectedRecs allWeightCandidates
  rw [List.filter_append]
  have hA : ((st.recs.filter (fun p => decide (p.1.kpre = kpre ∧ p.1.strat = strat))).map
      (fun p => (String.mk (pad14 p.1.t), p.2))).filter (fun p => is14num p.1) =
      (st.recs.filter (fun p => decide (p.1.kpre = kpre ∧ p.1.strat = strat))).map
        (fun p => (String.mk (pad14 p.1.t), p.2)) := by
    refine List.filter_eq_self.mpr (fun q hq => ?_)
    rcases List.mem_map.mp hq with ⟨p, hp, rfl⟩
    exact is14num_pad14 (hB p (List.mem_of_mem_filter hp))
  have hL : ((st.lasts.filter (fun p => decide (p.1.kpre = kpre ∧ p.1.strat = strat))).map
      (fun p => (("LAST" : String), p.2))).filter (fun p => is14num p.1) = [] := by
    refine List.filter_eq_nil_iff.mpr (fun q hq => ?_)
    rcases List.mem_map.mp hq with ⟨p, hp, rfl⟩
    simp [is14num]
  rw [hA, hL, List.append_nil, List.map_map]
  rfl

/-- A record as the claim's sparse-event scenario stores it (only `symbol`,
`dt` and `weight` matter to the pivot). -/
def scenRec (s : String) (t : Nat) (w : Rat) : WeightRec :=
  { symbol := s, weight := w, dt := t, dtStr := luaAtStr t, update_time := "",
    price := 0, ref := "\x7b\x7d" }

/-- Store holding exactly the scenario's three events `A:t1=1/2, B:t2=3/10,
A:t3=0`, plus the LastPointers a real publisher would leave (the selection
filter must discard them). -/
def scenStore (kpre strat : String) (t1 t2 t3 : Nat) : Store :=
  { recs := [(⟨kpre, strat, "A", t1⟩, scenRec "A" t1 (1/2)),
             (⟨kpre, strat, "B", t2⟩, scenRec "B" t2 (3/10)),
             (⟨kpre, strat, "A", t3⟩, scenRec "A" t3 0)],
    lasts := [(⟨kpre, strat, "A"⟩, scenRec "A" t3 0),
              (⟨kpre, strat, "B"⟩, scenRec "B" t2 (3/10))],
    zidx := [], metas := [], lastMarkers := [], heartbeats := [], names := [], pubs := [] }

/-- The records `get_all_weights` selects from the scenario store. -/
def scenSel (kpre strat : String) (t1 t2 t3 : Nat) : List WeightRec :=
  selectedRecs (scenStore kpre strat t1 t2 t3) kpre strat

/-- C6: `matrix()` (i) selects exactly the hashes whose key ends in a
14-digit numeric time suffix — the event records, never the
LastPointer/META/heartbeat keys — and (ii) on the sparse scenario
`A:t1=1/2, B:t2=3/10, A:t3=0` with `t1<t2<t3`, every row of the pivoted,
forward-filled, zero-backfilled matrix at a time in `[t2, t3)` shows
`A=1/2, B=3/10`, and every row at a time `≥ t3` shows `A=0, B=3/10`. -/
theorem C6_matrix (st : Store) (kpre strat : String)
    (hB : ∀ p ∈ st.recs, p.1.t < 10 ^ 14) :
    (selectedRecs st kpre strat =
      (st.recs.filter (fun p => decide (p.1.kpre = kpre ∧ p.1.strat = strat))).map
        (fun p => p.2)) ∧
    (∀ t1 t2 t3 : Nat, t1 < t2 → t2 < t3 → t3 < 10 ^ 14 →
      ∀ t ∈ rowTimes (scenSel kpre strat t1 t2 t3),
        (t2 ≤ t → t < t3 →
          matrixAt (scenSel kpre strat t1 t2 t3) "A" t = 1 / 2 ∧
          matrixAt (scenSel kpre strat t1 t2 t3) "B" t = 3 / 10) ∧
        (t3 ≤ t →
          matrixAt (scenSel kpre strat t1 t2 t3) "A" t = 0 ∧
          matrixAt (scenSel kpre strat t1 t2 t3) "B" t = 3 / 10)) := by
  refine ⟨selectedRecs_eq st kpre strat hB, ?_⟩
  intro t1 t2 t3 h12 h23 hb3 t ht
  have hne12 : t1 ≠ t2 := by omega
  have hne13 : t1 ≠ t3 := by omega
  have hne23 : t2 ≠ t3 := by omega
  have hBA : ("B" : String) ≠ "A" := by decide
  have hAB : ("A" : String) ≠ "B" := by decide
  have hsel : scenSel kpre strat t1 t2 t3 =
      [scenRec "A" t1 (1/2), scenRec "B" t2 (3/10), scenRec "A" t3 0] := by
    unfold scenSel
    rw [selectedRecs_eq _ _ _ (by
      intro p hp
      simp only [scenStore, List.mem_cons, List.not_mem_nil, or_false] at hp
      rcases hp with hp | hp | hp <;> (subst hp; simp; omega))]
    simp [scenStore]
  have hrow : rowTimes (scenSel kpre strat t1 t2 t3) = [t1, t2, t3] := by
    rw [hsel]
    unfold rowTimes
    have hmap : ([scenRec "A" t1 (1/2), scenRec "B" t2 (3/10),
        scenRec "A" t3 0].map (fun r => r.dt)) = [t1, t2, t3] := rfl
    rw [hmap]
    rw [List.dedup_eq_self.mpr (by simp [List.nodup_cons]; omega)]
    exact List.Sorted.insertionSort_eq (by simp [List.sorted_cons]; omega)
  have cA1 : cellRaw (scenSel kpre strat t1 t2 t3) t1 "A" = some (1/2) := by
    rw [hsel]; simp [cellRaw, scenRec, List.find?]
  have cA2 : cellRaw (scenSel kpre strat t1 t2 t3) t2 "A" = Option.none := by
    rw [hsel]; simp [cellRaw, scenRec, List.find?, hne12, Ne.symm hne23, hBA]
  have cA3 : cellRaw (scenSel kpre strat t1 t2 t3) t3 "A" = some 0 := by
    rw [hsel]; simp [cellRaw, scenRec, List.find?, hne13, hne23, hBA]
  have cB1 : cellRaw (scenSel kpre strat t1 t2 t3) t1 "B" = Option.none := by
    rw [hsel]; simp [cellRaw, scenRec, List.find?, Ne.symm hne12, Ne.symm hne13, hAB]
  have cB2 : cellRaw (scenSel kpre strat t1 t2 t3) t2 "B" = some (3/10) := by
    rw [hsel]; simp [cellRaw, scenRec, List.find?, hne12, hAB]
  have cB3 : cellRaw (scenSel kpre strat t1 t2 t3) t3 "B" = Option.none := by
    rw [hsel]; simp [cellRaw, scenRec, List.find?, hne13, hne23, hAB]
  have hcolA : colVals (scenSel kpre strat t1 t2 t3) "A" = [1/2, 1/2, 0] := by
    unfold colVals
    rw [hrow]
    simp only [List.map_cons, List.map_nil, cA1, cA2, cA3]
    simp [ffillCol]
  have hcolB : colVals (scenSel kpre strat t1 t2 t3) "B" = [0, 3/10, 3/10] := by
    unfold colVals
    rw [hrow]
    simp only [List.map_cons, List.map_nil, cB1, cB2, cB3]
    simp [ffillCol]
  have hb21 : (t2 == t1) = false := beq_eq_false_iff_ne.mpr (Ne.symm hne12)
  have hb31 : (t3 == t1) = false := beq_eq_false_iff_ne.mpr (Ne.symm hne13)
  have hb32 : (t3 == t2) = false := beq_eq_false_iff_ne.mpr (Ne.symm hne23)
  have hmatA2 : matrixAt (scenSel kpre strat t1 t2 t3) "A" t2 = 1/2 := by
    unfold matrixAt
    rw [hrow, hcolA]
    simp [List.lookup, hb21]
  have hmatB2 : matrixAt (scenSel kpre strat t1 t2 t3) "B" t2 = 3/10 := by
    unfold matrixAt
    rw [hrow, hcolB]
    simp [List.lookup, hb21]
  have hmatA3 : matrixAt (scenSel kpre strat t1 t2 t3) "A" t3 = 0 := by
    unfold matrixAt
    rw [hrow, hcolA]
    simp [List.lookup, hb31, hb32]
  have hmatB3 : matrixAt (scenSel kpre strat t1 t2 t3) "B" t3 = 3/10 := by
    unfold matrixAt
    rw [hrow, hcolB]
    simp [List.lookup, hb31, hb32]
  rw [hrow] at ht
  simp only [List.mem_cons, List.not_mem_nil, or_false] at ht
  rcases ht with rfl | rfl | rfl
  · exact ⟨fun hle _ => absurd hle (by omega), fun hle => absurd hle (by omega)⟩
  · exact ⟨fun _ _ => ⟨hmatA2, hmatB2⟩, fun hle => absurd hle (by omega)⟩
  · exact ⟨fun _ hlt => absurd hlt (by omega), fun _ => ⟨hmatA3, hmatB3⟩⟩

/-- Witness for C6 at the concrete scenario times 1 < 2 < 3: the matrix row
at time 2 shows `A=1/2, B=3/10` and the row at time 3 shows `A=0,
B=3/10`. -/
theorem C6_matrix_witness :
    matrixAt (scenSel "W" "S" 1 2 3) "A" 2 = 1 / 2 ∧
    matrixAt (scenSel "W" "S" 1 2 3) "B" 2 = 3 / 10 ∧
    matrixAt (scenSel "W" "S" 1 2 3) "A" 3 = 0 ∧
    matrixAt (scenSel "W" "S" 1 2 3) "B" 3 = 3 / 10 := by
  have h := (C6_matrix (scenStore "W" "S" 1 2 3) "W" "S" (by
    intro p hp
    simp only [scenStore, List.mem_cons, List.not_mem_nil, or_false] at hp
    rcases hp with hp | hp | hp <;> (subst hp; simp))).2 1 2 3
    (by omega) (by omega) (by omega)
  have h2 := h 2 (by rw [show rowTimes (scenSel "W" "S" 1 2 3) = [1, 2, 3] from rfl]; simp)
  have h3 := h 3 (by rw [show rowTimes (scenSel "W" "S" 1 2 3) = [1, 2, 3] from rfl]; simp)
  obtain ⟨hA2, hB2⟩ := h2.1 (by omega) (by omega)
  obtain ⟨hA3, hB3⟩ := h3.2 (by omega)
  exact ⟨hA2, hB2, hA3, hB3⟩

end RWC
